import Mathlib

set_option maxRecDepth 100000

/-!
# Verification of the smoldot core: non-finalized block tree and trie root calculator

This development shallowly embeds the two subsystems of the repository:

* `src/lib/src/trie/calculate_root.rs` — the radix-16 Merkle-Patricia trie root
  calculator together with its `CalculationCache` and the cache invalidation
  hooks `storage_value_update` / `prefix_remove_update`;
* `src/lib/src/chain/blocks_tree/verify.rs` — the verification state machine of
  the non-finalized block tree (duplicate / bad-parent detection, consensus and
  finality derivation, insert handles, abort paths).

Machine integers are modelled as `Nat` with explicit bounds where overflow
matters (`u64` checked arithmetic becomes an explicit comparison against
`2^64 - 1`).  Fallible or panicking code paths return `Option` (`none` models a
panic such as `todo!()`, `unreachable!()` or `unwrap` failure).  Code of the
repository that is not under `src/` (the `trie_structure`, `trie_node`,
`header` and `blake2` helper modules, and the external consensus verifiers) is
modelled from the spec; each such definition carries a doc comment starting
with `Modelled from the spec:`.
-/

/-! ## Bytes and nibbles -/

/-- A byte string: a list of naturals, each `< 256`. -/
abbrev Bytes := List Nat

/-- Largest value of a `u64`. -/
def u64Max : Nat := 2 ^ 64 - 1

/-- Modelled from the spec: `bytes_to_nibbles` from the `nibble` module turns
each byte into its high 4-bit nibble followed by its low nibble (the
`StorageValue::key` accessor in `calculate_root.rs` reconstructs bytes as
`nibble1 << 4 | nibble2`, fixing this order). -/
def bytesToNibbles : Bytes → List Nat
  | [] => []
  | b :: bs => b / 16 % 16 :: b % 16 :: bytesToNibbles bs

/-- Inverse of `bytesToNibbles`: pairs nibbles back into bytes.  The source
(`StorageValue::key`) calls `.unwrap()` on the second nibble of each pair, so an
odd number of nibbles is a panic, modelled as `none`. -/
def nibblesToBytes : List Nat → Option Bytes
  | [] => some []
  | [_] => none
  | n1 :: n2 :: rest => (nibblesToBytes rest).map (fun bs => (n1 % 16 * 16 + n2 % 16) :: bs)

/-! ## Blake2b-256

Modelled from the spec: the repository hashes with Blake2b-256
(`blake2_rfc::blake2b::blake2b(32, &[], data)`), whose implementation lives
outside `src/`.  This is the standard RFC 7693 Blake2b with a 32-byte digest
and no key; it is validated below against the two concrete trie-root vectors
embedded in `src/lib/src/trie/calculate_root.rs` (the module doc example and
the `trie_root_one_node` test). -/

/-- Truncate to 64 bits. -/
def w64 (n : Nat) : Nat := n % (2 ^ 64)

/-- 64-bit right rotation. -/
def rotr64 (x n : Nat) : Nat := w64 ((x >>> n) ||| (x <<< (64 - n)))

/-- Blake2b initialization vector (the SHA-512 IV). -/
def blakeIV : List Nat :=
  [0x6a09e667f3bcc908, 0xbb67ae8584caa73b, 0x3c6ef372fe94f82b, 0xa54ff53a5f1d36f1,
   0x510e527fade682d1, 0x9b05688c2b3e6c1f, 0x1f83d9abfb41bd6b, 0x5be0cd19137e2179]

/-- Blake2b message schedule permutations. -/
def blakeSigma : List (List Nat) :=
  [[0, 1, 2, 3, 4, 5, 6, 7, 8, 9, 10, 11, 12, 13, 14, 15],
   [14, 10, 4, 8, 9, 15, 13, 6, 1, 12, 0, 2, 11, 7, 5, 3],
   [11, 8, 12, 0, 5, 2, 15, 13, 10, 14, 3, 6, 7, 1, 9, 4],
   [7, 9, 3, 1, 13, 12, 11, 14, 2, 6, 5, 10, 4, 0, 15, 8],
   [9, 0, 5, 7, 2, 4, 10, 15, 14, 1, 11, 12, 6, 8, 3, 13],
   [2, 12, 6, 10, 0, 11, 8, 3, 4, 13, 7, 5, 15, 14, 1, 9],
   [12, 5, 1, 15, 14, 13, 4, 10, 0, 7, 6, 3, 9, 2, 8, 11],
   [13, 11, 7, 14, 12, 1, 3, 9, 5, 0, 15, 4, 8, 6, 2, 10],
   [6, 15, 14, 9, 11, 3, 0, 8, 12, 2, 13, 7, 1, 4, 10, 5],
   [10, 2, 8, 4, 7, 6, 1, 5, 15, 11, 9, 14, 3, 12, 13, 0]]

/-- The Blake2b `G` mixing function acting on the 16-word work vector `v`. -/
def blakeG (v : List Nat) (a b c d x y : Nat) : List Nat :=
  let va := w64 (v.getD a 0 + v.getD b 0 + x)
  let vd := rotr64 ((v.getD d 0) ^^^ va) 32
  let vc := w64 (v.getD c 0 + vd)
  let vb := rotr64 ((v.getD b 0) ^^^ vc) 24
  let va := w64 (va + vb + y)
  let vd := rotr64 (vd ^^^ va) 16
  let vc := w64 (vc + vd)
  let vb := rotr64 (vb ^^^ vc) 63
  ((((v.set a va).set b vb).set c vc).set d vd)

/-- One Blake2b round: column step then diagonal step, with message words
selected by the round's sigma permutation `s`. -/
def blakeRound (m : List Nat) (v : List Nat) (s : List Nat) : List Nat :=
  let mg := fun i => m.getD (s.getD i 0) 0
  let v := blakeG v 0 4 8 12 (mg 0) (mg 1)
  let v := blakeG v 1 5 9 13 (mg 2) (mg 3)
  let v := blakeG v 2 6 10 14 (mg 4) (mg 5)
  let v := blakeG v 3 7 11 15 (mg 6) (mg 7)
  let v := blakeG v 0 5 10 15 (mg 8) (mg 9)
  let v := blakeG v 1 6 11 12 (mg 10) (mg 11)
  let v := blakeG v 2 7 8 13 (mg 12) (mg 13)
  blakeG v 3 4 9 14 (mg 14) (mg 15)

/-- Split a (padded) 128-byte block into 16 little-endian 64-bit words. -/
def blockWords (block : Bytes) : List Nat :=
  (List.range 16).map (fun i =>
    (List.range 8).foldr (fun j acc => acc * 256 + (block.getD (8 * i + j) 0) % 256) 0)

/-- The Blake2b compression function.  `t` is the byte offset counter and
`final` marks the last block. -/
def blakeCompress (h : List Nat) (block : Bytes) (t : Nat) (final : Bool) : List Nat :=
  let m := blockWords block
  let v := h ++ blakeIV
  let v := v.set 12 ((v.getD 12 0) ^^^ w64 t)
  let v := v.set 13 ((v.getD 13 0) ^^^ (t / 2 ^ 64))
  let v := if final then v.set 14 ((v.getD 14 0) ^^^ (2 ^ 64 - 1)) else v
  let v := (List.range 12).foldl (fun v r => blakeRound m v (blakeSigma.getD (r % 10) [])) v
  (List.range 8).map (fun i => (h.getD i 0) ^^^ (v.getD i 0) ^^^ (v.getD (i + 8) 0))

/-- Feed the message to the compression function in 128-byte blocks.
`off` is the number of bytes already consumed; the first argument is
structural-recursion fuel (any value larger than the number of blocks). -/
def blakeBlocksGo : Nat → List Nat → Bytes → Nat → List Nat
  | 0, h, _, _ => h
  | fuel + 1, h, msg, off =>
      if msg.length ≤ 128 then
        blakeCompress h (msg ++ List.replicate (128 - msg.length) 0) (off + msg.length) true
      else
        blakeBlocksGo fuel (blakeCompress h (msg.take 128) (off + 128) false)
          (msg.drop 128) (off + 128)

/-- Feed the whole message to the compression function. -/
def blakeBlocks (h : List Nat) (msg : Bytes) (off : Nat) : List Nat :=
  blakeBlocksGo (msg.length + 1) h msg off

/-- Serialize a 64-bit word to 8 little-endian bytes. -/
def w64ToBytes (x : Nat) : Bytes :=
  (List.range 8).map (fun i => x / 256 ^ i % 256)

/-- Blake2b with a 32-byte digest and no key, as used throughout the
repository. -/
def blake2b256 (msg : Bytes) : Bytes :=
  let h0 := (blakeIV.set 0 ((blakeIV.getD 0 0) ^^^ 0x01010020))
  let h := blakeBlocks h0 msg 0
  ((h.take 4).map w64ToBytes).flatten

namespace Smoldot

/-! ## Block tree: data model

Embedding of the data model used by `src/lib/src/chain/blocks_tree/verify.rs`.
Authority public keys, runtime handles, verifier errors and similar payloads
that the verification logic only moves around are modelled as `Nat`. -/

/-- An authority public key, opaque to the verification logic. -/
abbrev AuthorityId := Nat

/-- The `chain_information::BabeEpochInformation` record: epoch index, optional
start slot, authorities, randomness, the constant `c` and the allowed-slot
policy. -/
structure BabeEpochInformation where
  epochIndex : Nat
  startSlotNumber : Option Nat
  authorities : List AuthorityId
  randomness : Nat
  c : Nat × Nat
  allowedSlots : Nat
deriving DecidableEq

/-- The `BlockConsensus` tag stored on every non-finalized block. -/
inductive BlockConsensus where
  | aura (authoritiesList : List AuthorityId)
  | babe (currentEpoch : Option BabeEpochInformation) (nextEpoch : BabeEpochInformation)
deriving DecidableEq

/-- The `BlockFinality` tag stored on every non-finalized block. -/
inductive BlockFinality where
  | outsourced
  | grandpa (prevAuthChangeTriggerNumber : Option Nat)
      (triggeredAuthorities : List AuthorityId)
      (triggersChange : Bool)
      (scheduledChange : Option (Nat × List AuthorityId))
      (afterBlockAuthoritiesSetId : Nat)
deriving DecidableEq

/-- The `FinalizedConsensus` descriptor held at the finalized head. -/
inductive FinalizedConsensus where
  | unknown
  | aura (authoritiesList : List AuthorityId) (slotDuration : Nat)
  | babe (blockEpochInformation : Option BabeEpochInformation)
      (nextEpochTransition : BabeEpochInformation) (slotsPerEpoch : Nat)
deriving DecidableEq

/-- The finalized-side finality descriptor. -/
inductive Finality where
  | outsourced
  | grandpa (afterFinalizedBlockAuthoritiesSetId : Nat)
      (finalizedScheduledChange : Option (Nat × List AuthorityId))
      (finalizedTriggeredAuthorities : List AuthorityId)
deriving DecidableEq

/-- Modelled from the spec: a digest log item of a decoded header, keeping only
the distinction the verification logic inspects — a Grandpa
`ScheduledChange(delay, next_authorities)` item, another Grandpa consensus item
(ignored by the code, `TODO: unimplemented`), or a non-Grandpa item. -/
inductive DigestItem where
  | grandpaScheduledChange (delay : Nat) (nextAuthorities : List AuthorityId)
  | grandpaOther
  | other
deriving DecidableEq

/-- Modelled from the spec: the outcome of the external header codec — parent
hash (32 bytes), block number (`u64`) and the digest log sequence. -/
structure Header where
  parentHash : Bytes
  number : Nat
  digest : List DigestItem
deriving DecidableEq

/-- A non-finalized block node: decoded header, hash of the raw header bytes,
consensus and finality tags and opaque user payload. -/
structure Block (T : Type) where
  header : Header
  hash : Bytes
  consensus : BlockConsensus
  finality : BlockFinality
  userData : T
deriving DecidableEq

/-- The container `NonFinalizedTreeInner`.  The fork-tree arena is a list of
(parent index, block) pairs — `fork_tree::ForkTree::insert` appends and returns
the fresh index, so indices are stable.  `blocksByHash` is the hash → node
index map, kept as an association list. -/
structure NFTInner (T : Type) where
  blocks : List (Option Nat × Block T)
  blocksByHash : List (Bytes × Nat)
  finalizedBlockHeader : Header
  finalizedBlockHash : Bytes
  finalizedConsensus : FinalizedConsensus
  finality : Finality
  currentBest : Option Nat
  allowUnknownConsensusEngines : Bool
deriving DecidableEq

/-- Lookup in the hash → index association list (`HashMap::get`). -/
def lookupHash : List (Bytes × Nat) → Bytes → Option Nat
  | [], _ => none
  | p :: rest, h => if p.1 = h then some p.2 else lookupHash rest h

/-! ## Consensus and finality derivation (`VerifyContext::apply_success_body`) -/

/-- The consensus part of a successful verification, as reported by the
external verifier (`verify::header_body::SuccessConsensus`, to which the
header-only success converts in `apply_success_header`). -/
inductive SuccessConsensus where
  | aura (authoritiesChange : Bool)
  | babe (epochTransitionTarget : Option BabeEpochInformation) (slotNumber : Nat)
deriving DecidableEq

/-- Embedding of the consensus `match` of `VerifyContext::apply_success_body`
(`verify.rs` lines 360–497).  The four scrutinees are, in source order, the
verifier success, `self.consensus`, `self.chain.finalized_consensus` and the
consensus of the parent tree node (`None` when the parent is the finalized
head).  `none` models a panic: the `todo!()` in the Aura authorities-change arm
and the final `unreachable!()` arm. -/
def applySuccessConsensus (success : SuccessConsensus) (ctxConsensus : Option BlockConsensus)
    (finalizedConsensus : FinalizedConsensus) (parentConsensus : Option BlockConsensus) :
    Option BlockConsensus :=
  match success, ctxConsensus, finalizedConsensus, parentConsensus with
  | .aura authoritiesChange, some (.aura parentAuthorities), .aura _ _, _ =>
      if authoritiesChange then
        none
      else
        some (.aura parentAuthorities)
  | .babe (some target) slotNumber, some (.babe _ _), .babe _ _ _, some (.babe _ nextEpoch) =>
      if nextEpoch.startSlotNumber.isSome then
        some (.babe (some nextEpoch) target)
      else
        some (.babe (some
          { startSlotNumber := some slotNumber,
            allowedSlots := nextEpoch.allowedSlots,
            epochIndex := nextEpoch.epochIndex,
            authorities := nextEpoch.authorities,
            c := nextEpoch.c,
            randomness := nextEpoch.randomness }) target)
  | .babe none _, some (.babe _ _), .babe _ _ _, some (.babe currentEpoch nextEpoch) =>
      some (.babe currentEpoch nextEpoch)
  | .babe (some target) slotNumber, some (.babe _ _), .babe _ nextEpochTransition _, none =>
      if nextEpochTransition.startSlotNumber.isSome then
        some (.babe (some nextEpochTransition) target)
      else
        some (.babe (some
          { startSlotNumber := some slotNumber,
            allowedSlots := nextEpochTransition.allowedSlots,
            authorities := nextEpochTransition.authorities,
            c := nextEpochTransition.c,
            epochIndex := nextEpochTransition.epochIndex,
            randomness := nextEpochTransition.randomness }) target)
  | .babe none _, some (.babe _ _), .babe blockEpochInformation nextEpochTransition _, none =>
      some (.babe blockEpochInformation nextEpochTransition)
  | _, _, _, _ => none

/-- Embedding of the Grandpa digest loop of `apply_success_body` (lines
514–544): fold over the digest items; on a `ScheduledChange`, first compute
`number.checked_add(delay).unwrap()` (`none` models the overflow panic), then
record the change only if none is pending yet (first-schedule-wins), ignoring
it otherwise. -/
def processGrandpaDigests (number : Nat) (sched : Option (Nat × List AuthorityId)) :
    List DigestItem → Option (Option (Nat × List AuthorityId))
  | [] => some sched
  | .grandpaScheduledChange delay nextAuthorities :: rest =>
      if number + delay ≤ u64Max then
        match sched with
        | some _ => processGrandpaDigests number sched rest
        | none => processGrandpaDigests number (some (number + delay, nextAuthorities)) rest
      else
        none
  | .grandpaOther :: rest => processGrandpaDigests number sched rest
  | .other :: rest => processGrandpaDigests number sched rest

/-- Embedding of the finality derivation of `apply_success_body` (lines
499–584): process the Grandpa digests, trigger a pending change whose height
equals the block number, derive `prev_auth_change_trigger_number` and bump the
authority set id on a trigger. -/
def applySuccessFinality (finality : BlockFinality) (number : Nat)
    (digest : List DigestItem) : Option BlockFinality :=
  match finality with
  | .outsourced => some .outsourced
  | .grandpa parentPrev parentTriggered parentTriggers parentScheduled parentSetId =>
      match processGrandpaDigests number parentScheduled digest with
      | none => none
      | some sched =>
          let tts : Bool × List AuthorityId × Option (Nat × List AuthorityId) :=
            match sched with
            | some (triggerHeight, newList) =>
                if triggerHeight = number then (true, newList, none)
                else (false, parentTriggered, some (triggerHeight, newList))
            | none => (false, parentTriggered, none)
          some (.grandpa
            (if parentTriggers then some (number - 1) else parentPrev)
            tts.2.1
            tts.1
            tts.2.2
            (if tts.1 then parentSetId + 1 else parentSetId))

/-! ## The verification state machine -/

/-- Errors of `verify_header` (`HeaderVerifyError`).  The payloads of
`InvalidHeader` and `VerificationFailed` come from external modules and are
modelled as absent resp. a `Nat`. -/
inductive HeaderVerifyError where
  | invalidHeader
  | unknownConsensusEngine
  | consensusMismatch
  | badParent (parentHash : Bytes)
  | verificationFailed (err : Nat)
deriving DecidableEq

/-- The in-flight state shared by all continuation objects (`VerifyContext`). -/
structure VerifyContext (T : Type) where
  chain : NFTInner T
  parentTreeIndex : Option Nat
  header : Header
  consensus : Option BlockConsensus
  finality : BlockFinality
deriving DecidableEq

/-- External inputs that the verification consumes but that are computed
outside `src/` and therefore modelled from the spec: the outcome of
`best_block::is_better_block` when a current best block exists (higher number
wins, ties broken by slot), and the header hash function used on the body path
(`Header::hash` re-encodes the header through the external codec and hashes
it). -/
structure ExternalOracles where
  isBetter : Bool
  hashOfHeader : Header → Bytes

/-- Embedding of `VerifyContext::apply_success_body` (lines 345–587): derive
`is_new_best`, the consensus tag and the finality tag of the block under
verification.  `none` models the panics inside the derivation. -/
def VerifyContext.applySuccessBody (E : ExternalOracles) (ctx : VerifyContext T)
    (success : SuccessConsensus) : Option (Bool × BlockConsensus × BlockFinality) :=
  let isNewBest : Bool :=
    match ctx.chain.currentBest with
    | some _ => E.isBetter
    | none => true
  let parentConsensus : Option (Option BlockConsensus) :=
    match ctx.parentTreeIndex with
    | some idx =>
        match ctx.chain.blocks.get? idx with
        | some (_, parentBlock) => some (some parentBlock.consensus)
        | none => none
    | none => some none
  match parentConsensus with
  | none => none
  | some parentConsensus =>
      match applySuccessConsensus success ctx.consensus ctx.chain.finalizedConsensus
          parentConsensus with
      | none => none
      | some consensus =>
          match applySuccessFinality ctx.finality ctx.header.number ctx.header.digest with
          | none => none
          | some finality => some (isNewBest, consensus, finality)

/-- The suspension `BodyVerifyRuntimeRequired`: holds the context and the
timestamp, waiting for the parent runtime. -/
structure BodyVerifyRuntimeRequired (T : Type) where
  context : VerifyContext T
  nowFromUnixEpoch : Nat
deriving DecidableEq

/-- Embedding of `BodyVerifyRuntimeRequired::abort` (lines 819–824): hand the
tree back unmodified. -/
def BodyVerifyRuntimeRequired.abort (r : BodyVerifyRuntimeRequired T) : NFTInner T :=
  r.context.chain

/-- The outcome of the first step of body verification (`BodyVerifyStep1`). -/
inductive BodyVerifyStep1 (T : Type) where
  | duplicate (chain : NFTInner T)
  | invalidHeader (chain : NFTInner T)
  | badParent (chain : NFTInner T) (parentHash : Bytes)
  | parentRuntimeRequired (r : BodyVerifyRuntimeRequired T)
deriving DecidableEq

/-- The outcome of `NonFinalizedTreeInner::verify` (`VerifyOut`). -/
inductive VerifyOut (T : Type) where
  | headerOk (context : VerifyContext T) (isNewBest : Bool)
      (consensus : BlockConsensus) (finality : BlockFinality)
  | headerErr (chain : NFTInner T) (err : HeaderVerifyError)
  | headerDuplicate (chain : NFTInner T)
  | body (step : BodyVerifyStep1 T)
deriving DecidableEq

/-- Embedding of `NonFinalizedTreeInner::verify` (lines 122–307), the common
prologue of `verify_header` and `verify_body`: decode, duplicate check, parent
lookup, inheritance of the consensus/finality context, then either suspend for
the body path or run the header-only verification.  External collaborators are
parameters: `decode` is the header codec, the hash of the raw header bytes is
`blake2b256 raw` (`header::hash_from_scale_encoded_header`), and `hres` is the
outcome the external `verify::header_only::verify` returns for this block.
`none` models a panic. -/
def NFTInner.verify (E : ExternalOracles) (decode : Bytes → Option Header)
    (hres : Except Nat SuccessConsensus) (s : NFTInner T) (raw : Bytes)
    (nowFromUnixEpoch : Nat) (full : Bool) : Option (VerifyOut T) :=
  match decode raw with
  | none =>
      if full then some (.body (.invalidHeader s))
      else some (.headerErr s .invalidHeader)
  | some decodedHeader =>
      let hash := blake2b256 raw
      if (lookupHash s.blocksByHash hash).isSome then
        if full then some (.body (.duplicate s))
        else some (.headerDuplicate s)
      else
        let parentLookup : Option (Option Nat) :=
          if decodedHeader.parentHash = s.finalizedBlockHash then some none
          else
            match lookupHash s.blocksByHash decodedHeader.parentHash with
            | some parent => some (some parent)
            | none => none
        match parentLookup with
        | none =>
            if full then
              some (.body (.badParent s decodedHeader.parentHash))
            else
              some (.headerErr s (.badParent decodedHeader.parentHash))
        | some parentTreeIndex =>
            let inherited : Option (Option BlockConsensus × BlockFinality) :=
              match parentTreeIndex with
              | some idx =>
                  match s.blocks.get? idx with
                  | some (_, parent) => some (some parent.consensus, parent.finality)
                  | none => none
              | none =>
                  let consensus : Option BlockConsensus :=
                    match s.finalizedConsensus with
                    | .unknown => none
                    | .aura authoritiesList _ => some (.aura authoritiesList)
                    | .babe blockEpochInformation nextEpochTransition _ =>
                        some (.babe blockEpochInformation nextEpochTransition)
                  let finality : BlockFinality :=
                    match s.finality with
                    | .outsourced => .outsourced
                    | .grandpa afterFinalizedId finalizedScheduled finalizedTriggered =>
                        .grandpa none finalizedTriggered false finalizedScheduled
                          afterFinalizedId
                  some (consensus, finality)
            match inherited with
            | none => none
            | some (consensus, finality) =>
                let ctx : VerifyContext T :=
                  { chain := s, parentTreeIndex := parentTreeIndex,
                    header := decodedHeader, consensus := consensus, finality := finality }
                if full then
                  some (.body (.parentRuntimeRequired
                    { context := ctx, nowFromUnixEpoch := nowFromUnixEpoch }))
                else
                  match ctx.chain.finalizedConsensus, ctx.consensus with
                  | .aura _ _, some (.aura _) | .babe _ _ _, some (.babe _ _) =>
                      match hres with
                      | .error e => some (.headerErr ctx.chain (.verificationFailed e))
                      | .ok success =>
                          match ctx.applySuccessBody E success with
                          | none => none
                          | some (isNewBest, newConsensus, newFinality) =>
                              some (.headerOk ctx isNewBest newConsensus newFinality)
                  | .unknown, none =>
                      some (.headerErr ctx.chain .unknownConsensusEngine)
                  | _, _ =>
                      some (.headerErr ctx.chain .consensusMismatch)

/-! ## The body-path state machine after the parent runtime is supplied -/

/-- The success payload of the external body verifier
(`verify::header_body::Success`).  Everything except the consensus part
(runtimes, storage diffs, trie version, root-calculation cache) is external
data that the tree verification only forwards; it is lumped into opaque
fields. -/
structure HBSuccess where
  consensus : SuccessConsensus
  parentRuntime : Nat
  rest : Nat

/-- The state machine of the external body verifier
(`verify::header_body::Verify`), modelled from the spec as an oracle: each
suspension carries the requested key or prefix and a continuation returning
the next state. -/
inductive HBVerify where
  | finishedOk (success : HBSuccess)
  | finishedErr (error : Nat) (parentRuntime : Nat)
  | storageGet (key : Bytes) (next : Option (Bytes × Nat) → HBVerify)
  | storageNextKey (key : Bytes) (next : Option Bytes → HBVerify)
  | storagePrefixKeys (pfx : Bytes) (next : List Bytes → HBVerify)
  | runtimeCompilation (next : Unit → HBVerify)

/-- Error of the body path (`BodyVerifyError`). -/
inductive BodyVerifyError where
  | consensus (err : Nat)
  | unknownConsensusEngine
  | consensusMismatch
deriving DecidableEq

/-- The insert handle of the body path (`BodyInsert`). -/
structure BodyInsert (T : Type) where
  context : VerifyContext T
  hash : Bytes
  isNewBest : Bool
  consensus : BlockConsensus
  finality : BlockFinality

/-- Embedding of `BodyInsert::abort` (lines 1259–1264): destroy the handle
without inserting and hand the tree back. -/
def BodyInsert.abort (b : BodyInsert T) : NFTInner T :=
  b.context.chain

/-- The suspension `StorageGet`: requested key, external continuation, and the
verification context. -/
structure StorageGetS (T : Type) where
  key : Bytes
  next : Option (Bytes × Nat) → HBVerify
  context : VerifyContext T

/-- The suspension `StorageNextKey`. -/
structure StorageNextKeyS (T : Type) where
  key : Bytes
  next : Option Bytes → HBVerify
  context : VerifyContext T

/-- The suspension `StoragePrefixKeys`. -/
structure StoragePrefixKeysS (T : Type) where
  pfx : Bytes
  next : List Bytes → HBVerify
  context : VerifyContext T

/-- The suspension `RuntimeCompilation`. -/
structure RuntimeCompilationS (T : Type) where
  next : Unit → HBVerify
  context : VerifyContext T

/-- The later steps of body verification (`BodyVerifyStep2`). -/
inductive BodyVerifyStep2 (T : Type) where
  | finished (parentRuntime : Nat) (rest : Nat) (insert : BodyInsert T)
  | error (chain : NFTInner T) (error : BodyVerifyError) (parentRuntime : Nat)
  | storageGet (g : StorageGetS T)
  | storagePrefixKeys (g : StoragePrefixKeysS T)
  | storageNextKey (g : StorageNextKeyS T)
  | runtimeCompilation (g : RuntimeCompilationS T)

/-- Embedding of `VerifyContext::with_body_verify` (lines 589–648): wrap each
state of the external verifier into the corresponding public suspension, and on
success apply the post-block derivation and produce the `BodyInsert` handle.
`none` models a panic inside the derivation. -/
def VerifyContext.withBodyVerify (E : ExternalOracles) (ctx : VerifyContext T)
    (inner : HBVerify) : Option (BodyVerifyStep2 T) :=
  match inner with
  | .finishedOk success =>
      match ctx.applySuccessBody E success.consensus with
      | none => none
      | some (isNewBest, consensus, finality) =>
          some (.finished success.parentRuntime success.rest
            { context := ctx, hash := E.hashOfHeader ctx.header,
              isNewBest := isNewBest, consensus := consensus, finality := finality })
  | .finishedErr e parentRuntime =>
      some (.error ctx.chain (.consensus e) parentRuntime)
  | .storageGet key next => some (.storageGet { key := key, next := next, context := ctx })
  | .storageNextKey key next =>
      some (.storageNextKey { key := key, next := next, context := ctx })
  | .storagePrefixKeys pfx next =>
      some (.storagePrefixKeys { pfx := pfx, next := next, context := ctx })
  | .runtimeCompilation next =>
      some (.runtimeCompilation { next := next, context := ctx })

/-- Embedding of `BodyVerifyRuntimeRequired::resume` (lines 740–816): check the
consensus-engine pairing, then run the external body verifier (whose state
machine is the `process` argument) through `with_body_verify`. -/
def BodyVerifyRuntimeRequired.resume (E : ExternalOracles)
    (r : BodyVerifyRuntimeRequired T) (parentRuntime : Nat) (process : HBVerify) :
    Option (BodyVerifyStep2 T) :=
  match r.context.chain.finalizedConsensus, r.context.consensus with
  | .unknown, none =>
      some (.error r.context.chain .unknownConsensusEngine parentRuntime)
  | .aura _ _, some (.aura _) | .babe _ _ _, some (.babe _ _) =>
      r.context.withBodyVerify E process
  | _, _ =>
      some (.error r.context.chain .consensusMismatch parentRuntime)

/-- Embedding of `StorageGet::inject_value` (lines 946–953). -/
def StorageGetS.injectValue (E : ExternalOracles) (g : StorageGetS T)
    (value : Option (Bytes × Nat)) : Option (BodyVerifyStep2 T) :=
  g.context.withBodyVerify E (g.next value)

/-- Embedding of `StorageNextKey::inject_key` (lines 1069–1072). -/
def StorageNextKeyS.injectKey (E : ExternalOracles) (g : StorageNextKeyS T)
    (key : Option Bytes) : Option (BodyVerifyStep2 T) :=
  g.context.withBodyVerify E (g.next key)

/-- Embedding of `StoragePrefixKeys::inject_keys_ordered` (lines 1005–1011). -/
def StoragePrefixKeysS.injectKeysOrdered (E : ExternalOracles)
    (g : StoragePrefixKeysS T) (keys : List Bytes) : Option (BodyVerifyStep2 T) :=
  g.context.withBodyVerify E (g.next keys)

/-- Embedding of `RuntimeCompilation::build` (lines 1087–1090). -/
def RuntimeCompilationS.build (E : ExternalOracles) (g : RuntimeCompilationS T) :
    Option (BodyVerifyStep2 T) :=
  g.context.withBodyVerify E (g.next ())

/-! ## Insert handles -/

/-- Embedding of the insertion performed by both `HeaderInsert::insert` (lines
1123–1154) and `BodyInsert::insert` (lines 1225–1257), which run the same code:
append the new block to the fork-tree arena (its index is the previous length;
`fork_tree::ForkTree::insert` panics on a dangling parent index, modelled as
`none`), insert hash → index into the map (the source `assert!`s that the hash
was not already bound, modelled as `none`), and update `current_best` exactly
when `is_new_best` was reported. -/
def insertBlock (ctx : VerifyContext T) (hash : Bytes) (isNewBest : Bool)
    (consensus : BlockConsensus) (finality : BlockFinality) (userData : T) :
    Option (NFTInner T) :=
  let chain := ctx.chain
  let parentOk : Bool :=
    match ctx.parentTreeIndex with
    | some idx => idx < chain.blocks.length
    | none => true
  if ¬parentOk then none
  else if (lookupHash chain.blocksByHash hash).isSome then none
  else
    let newNodeIndex := chain.blocks.length
    some { chain with
      blocks := chain.blocks ++ [(ctx.parentTreeIndex,
        { header := ctx.header, hash := hash, consensus := consensus,
          finality := finality, userData := userData })],
      blocksByHash := chain.blocksByHash ++ [(hash, newNodeIndex)],
      currentBest := if isNewBest then some newNodeIndex else chain.currentBest }

/-- Embedding of the `Drop` implementation of `HeaderInsert` (lines 1177–1185):
when the handle is dropped without `insert` having been called, the context is
still present and the tree is put back unchanged. -/
def headerInsertDrop (ctx : VerifyContext T) : NFTInner T :=
  ctx.chain

/-- Embedding of `HeaderInsert::into_header` (lines 1162–1166): destroy the
handle without inserting; the tree is put back unchanged. -/
def headerInsertIntoHeader (ctx : VerifyContext T) : NFTInner T × Header :=
  (ctx.chain, ctx.header)

/-! ## Claims C3, C4, C5: post-block derivation -/

/-- The first `ScheduledChange` item of a digest log, if any. -/
def firstScheduledChange : List DigestItem → Option (Nat × List AuthorityId)
  | [] => none
  | .grandpaScheduledChange delay nextAuthorities :: _ => some (delay, nextAuthorities)
  | .grandpaOther :: rest => firstScheduledChange rest
  | .other :: rest => firstScheduledChange rest

theorem processGrandpaDigests_pending (number : Nat) (x : Nat × List AuthorityId)
    (digest : List DigestItem)
    (hov : ∀ d a, DigestItem.grandpaScheduledChange d a ∈ digest → number + d ≤ u64Max) :
    processGrandpaDigests number (some x) digest = some (some x) := by
  induction digest with
  | nil => rfl
  | cons item rest ih =>
      have ih' := ih (fun d a hm => hov d a (List.mem_cons_of_mem _ hm))
      cases item with
      | grandpaScheduledChange d a =>
          have hd : number + d ≤ u64Max := hov d a (List.mem_cons_self _ _)
          simpa [processGrandpaDigests, hd] using ih'
      | grandpaOther => simpa [processGrandpaDigests] using ih'
      | other => simpa [processGrandpaDigests] using ih'

theorem processGrandpaDigests_none (number : Nat) (digest : List DigestItem)
    (hov : ∀ d a, DigestItem.grandpaScheduledChange d a ∈ digest → number + d ≤ u64Max) :
    processGrandpaDigests number none digest =
      some ((firstScheduledChange digest).map (fun p => (number + p.1, p.2))) := by
  induction digest with
  | nil => rfl
  | cons item rest ih =>
      have ih' := ih (fun d a hm => hov d a (List.mem_cons_of_mem _ hm))
      cases item with
      | grandpaScheduledChange d a =>
          have hd : number + d ≤ u64Max := hov d a (List.mem_cons_self _ _)
          simp only [processGrandpaDigests, hd, if_pos, firstScheduledChange, Option.map]
          exact processGrandpaDigests_pending number _ rest
            (fun d a hm => hov d a (List.mem_cons_of_mem _ hm))
      | grandpaOther => simpa [processGrandpaDigests, firstScheduledChange] using ih'
      | other => simpa [processGrandpaDigests, firstScheduledChange] using ih'

/-- Claim C3 (amended): for a successfully verified Grandpa block whose
`number + delay` additions do not overflow a `u64` and whose parent carries no
pending scheduled change, the derived `BlockFinality` records
`scheduled_change = Some(number + delay, next_authorities)` from the first
`ScheduledChange` digest only (once a change is pending, later digests are
ignored); if the recorded trigger height equals the block number the change
triggers instead (`triggers_change = true`, `triggered_authorities` is the new
list, `scheduled_change` becomes `None`);
`prev_auth_change_trigger_number` is `Some(number - 1)` when the parent
triggered a change and otherwise the parent value; and the authority set id is
bumped by one exactly when the block triggers a change. -/
theorem c3_grandpa_finality_derivation (parentPrev : Option Nat)
    (parentTriggered : List AuthorityId) (parentTriggers : Bool)
    (parentSetId number : Nat) (digest : List DigestItem)
    (hov : ∀ d a, DigestItem.grandpaScheduledChange d a ∈ digest → number + d ≤ u64Max) :
    applySuccessFinality
        (.grandpa parentPrev parentTriggered parentTriggers none parentSetId) number digest =
      some (match firstScheduledChange digest with
        | some (delay, nextAuthorities) =>
            if number + delay = number then
              .grandpa (if parentTriggers then some (number - 1) else parentPrev)
                nextAuthorities true none (parentSetId + 1)
            else
              .grandpa (if parentTriggers then some (number - 1) else parentPrev)
                parentTriggered false (some (number + delay, nextAuthorities)) parentSetId
        | none =>
            .grandpa (if parentTriggers then some (number - 1) else parentPrev)
              parentTriggered false none parentSetId) := by
  simp only [applySuccessFinality]
  rw [processGrandpaDigests_none number digest hov]
  cases hfs : firstScheduledChange digest with
  | none => rfl
  | some p =>
      obtain ⟨d, a⟩ := p
      by_cases hd : number + d = number <;> simp [hd]

/-- Claim C3, witness: a concrete Grandpa derivation in which the first digest
triggers at the block height and a later digest is ignored. -/
theorem c3_grandpa_finality_derivation_witness :
    applySuccessFinality (.grandpa none [9] true none 2) 10
        [.grandpaScheduledChange 0 [5], .grandpaScheduledChange 3 [6]] =
      some (.grandpa (some 9) [5] true none 3) := by
  refine (c3_grandpa_finality_derivation none [9] true 2 10
    [.grandpaScheduledChange 0 [5], .grandpaScheduledChange 3 [6]] ?_).trans (by decide)
  intro d a hm
  simp only [List.mem_cons, List.not_mem_nil, or_false] at hm
  rcases hm with h | h <;> (cases h; decide)

/-- Claim C3, counterexample to the claim as stated: when the parent already
carries a pending scheduled change (here at height 7), the code keeps the
pending change and ignores the `ScheduledChange(2, [1])` digest of the block at
height 5, whereas the claim demands `scheduled_change = Some(5 + 2, [1])` taken
from the first digest. -/
theorem c3_pending_parent_counterexample :
    applySuccessFinality (.grandpa none [] false (some (7, [0])) 4) 5
        [.grandpaScheduledChange 2 [1]] =
      some (.grandpa none [] false (some (7, [0])) 4) ∧
    some (BlockFinality.grandpa none [] false (some (7, [0])) 4) ≠
      some (BlockFinality.grandpa none [] false (some (5 + 2, [1])) 4) := by
  constructor <;> decide

/-- Promotion of an epoch with the start slot pinned to the verified slot when
previously absent. -/
def pinStartSlot (e : BabeEpochInformation) (slotNumber : Nat) : BabeEpochInformation :=
  if e.startSlotNumber.isSome then e else { e with startSlotNumber := some slotNumber }

/-- Claim C4: the Babe consensus derivation.  When the verifier reports an
epoch transition target `t` at slot `s`, the parent `next_epoch` (taken from
the parent tree node, or from the finalized consensus descriptor when the
parent is the finalized head) is promoted to `current_epoch` with
`start_slot_number` pinned to `s` when absent, and `next_epoch` becomes `t`.
Without a transition, the parent pair is inherited unchanged. -/
theorem c4_babe_consensus_derivation (ctxCurrent parentCurrent : Option BabeEpochInformation)
    (ctxNext parentNext net target : BabeEpochInformation)
    (bei : Option BabeEpochInformation) (slotsPerEpoch slotNumber : Nat) :
    (applySuccessConsensus (.babe (some target) slotNumber)
        (some (.babe ctxCurrent ctxNext)) (.babe bei net slotsPerEpoch)
        (some (.babe parentCurrent parentNext)) =
      some (.babe (some (pinStartSlot parentNext slotNumber)) target)) ∧
    (applySuccessConsensus (.babe none slotNumber)
        (some (.babe ctxCurrent ctxNext)) (.babe bei net slotsPerEpoch)
        (some (.babe parentCurrent parentNext)) =
      some (.babe parentCurrent parentNext)) ∧
    (applySuccessConsensus (.babe (some target) slotNumber)
        (some (.babe ctxCurrent ctxNext)) (.babe bei net slotsPerEpoch) none =
      some (.babe (some (pinStartSlot net slotNumber)) target)) ∧
    (applySuccessConsensus (.babe none slotNumber)
        (some (.babe ctxCurrent ctxNext)) (.babe bei net slotsPerEpoch) none =
      some (.babe bei net)) := by
  refine ⟨?_, rfl, ?_, rfl⟩
  · cases hs : parentNext.startSlotNumber <;>
      simp [applySuccessConsensus, pinStartSlot, hs]
  · cases hs : net.startSlotNumber <;>
      simp [applySuccessConsensus, pinStartSlot, hs]

/-- Claim C5 (amended): the Aura consensus derivation copies the parent
authorities list when the verifier reports no authorities change; when it
reports a change, the arm is unimplemented (`todo!()`) and the derivation
panics instead of producing a value. -/
theorem c5_aura_consensus_derivation (parentAuthorities finAuthorities : List AuthorityId)
    (slotDuration : Nat) (parentConsensus : Option BlockConsensus) :
    applySuccessConsensus (.aura false) (some (.aura parentAuthorities))
        (.aura finAuthorities slotDuration) parentConsensus =
      some (.aura parentAuthorities) ∧
    applySuccessConsensus (.aura true) (some (.aura parentAuthorities))
        (.aura finAuthorities slotDuration) parentConsensus = none := by
  constructor <;> rfl

/-- Claim C5, counterexample to the claim as stated: with
`authorities_change = true` the derivation hits the `todo!()` arm and panics
(`none`); no `BlockConsensus` value is produced, contradicting the claim that
the operation completes normally with the list sourced from the digest. -/
theorem c5_aura_change_counterexample :
    applySuccessConsensus (.aura true) (some (.aura [1, 2])) (.aura [1, 2] 6) none = none :=
  rfl

/-! ## Claims C6, C7: duplicate and bad-parent detection -/

/-- Claim C6 (amended): for every tree state and every decodable raw header
whose Blake2b-256 hash over the raw bytes is already a key of
`blocks_by_hash`, `verify_header` returns `Ok(Duplicate)` and `verify_body`
returns `BodyVerifyStep1::Duplicate`, and in both cases the tree handed back is
exactly the tree before the call; `Duplicate` is a success variant, not an
error. -/
theorem c6_duplicate_detection {T : Type} (E : ExternalOracles)
    (decode : Bytes → Option Header) (hres : Except Nat SuccessConsensus)
    (s : NFTInner T) (raw : Bytes) (now : Nat)
    (hdec : (decode raw).isSome)
    (hdup : (lookupHash s.blocksByHash (blake2b256 raw)).isSome) :
    s.verify E decode hres raw now false = some (.headerDuplicate s) ∧
    s.verify E decode hres raw now true = some (.body (.duplicate s)) := by
  obtain ⟨hdr, hh⟩ := Option.isSome_iff_exists.mp hdec
  constructor <;> simp [NFTInner.verify, hh, hdup]

/-- A tiny concrete tree state used by the C6 example: one known hash, the
hash of the raw bytes `[7]`. -/
def c6ExState : NFTInner Nat :=
  { blocks := [], blocksByHash := [(blake2b256 [7], 0)],
    finalizedBlockHeader := { parentHash := [], number := 0, digest := [] },
    finalizedBlockHash := [1], finalizedConsensus := .aura [1] 6,
    finality := .outsourced, currentBest := none,
    allowUnknownConsensusEngines := false }

/-- Claim C6, witness: a concrete duplicate detection on the header path. -/
theorem c6_duplicate_detection_witness :
    c6ExState.verify ⟨true, fun _ => []⟩
        (fun _ => some { parentHash := [1], number := 1, digest := [] })
        (.ok (.aura false)) [7] 0 false =
      some (.headerDuplicate c6ExState) :=
  (c6_duplicate_detection _ _ _ c6ExState [7] 0 (by decide) (by decide)).1

/-- A concrete tree state whose hash map contains the hash of the empty byte
string, together with a codec that rejects the empty byte string. -/
def c6CexState : NFTInner Nat :=
  { blocks := [], blocksByHash := [(blake2b256 [], 0)],
    finalizedBlockHeader := { parentHash := [], number := 0, digest := [] },
    finalizedBlockHash := [1], finalizedConsensus := .aura [1] 6,
    finality := .outsourced, currentBest := none,
    allowUnknownConsensusEngines := false }

/-- A codec for the C6 counterexample that rejects the empty byte string and
decodes everything else. -/
def c6CexDecode : Bytes → Option Header := fun raw =>
  if raw = [] then none else some { parentHash := [1], number := 1, digest := [] }

/-- Claim C6, counterexample to the claim as stated: the duplicate check runs
only after the header has been decoded, so a raw byte string that the codec
rejects is reported as `InvalidHeader` on both paths even when its hash is
already a key of `blocks_by_hash`; the claim as stated (quantifying over every
raw header, not only decodable ones) demands `Duplicate` here. -/
theorem c6_undecodable_duplicate_counterexample :
    (lookupHash c6CexState.blocksByHash (blake2b256 [])).isSome = true ∧
    c6CexState.verify ⟨true, fun _ => []⟩ c6CexDecode (.ok (.aura false)) [] 0 false =
      some (.headerErr c6CexState .invalidHeader) ∧
    c6CexState.verify ⟨true, fun _ => []⟩ c6CexDecode (.ok (.aura false)) [] 0 true =
      some (.body (.invalidHeader c6CexState)) ∧
    some (.headerErr c6CexState .invalidHeader) ≠
      (some (.headerDuplicate c6CexState) : Option (VerifyOut Nat)) := by
  refine ⟨by decide, rfl, rfl, by decide⟩

/-- Claim C7: for every decodable, non-duplicate header whose parent hash is
neither the finalized hash nor the hash of a known block, both paths report
`BadParent` carrying exactly that parent hash, with the tree handed back
unchanged. -/
theorem c7_bad_parent_detection {T : Type} (E : ExternalOracles)
    (decode : Bytes → Option Header) (hres : Except Nat SuccessConsensus)
    (s : NFTInner T) (raw : Bytes) (now : Nat) (hdr : Header)
    (hdec : decode raw = some hdr)
    (hnodup : lookupHash s.blocksByHash (blake2b256 raw) = none)
    (hnofin : hdr.parentHash ≠ s.finalizedBlockHash)
    (hnopar : lookupHash s.blocksByHash hdr.parentHash = none) :
    s.verify E decode hres raw now false =
      some (.headerErr s (.badParent hdr.parentHash)) ∧
    s.verify E decode hres raw now true =
      some (.body (.badParent s hdr.parentHash)) := by
  constructor <;> simp [NFTInner.verify, hdec, hnodup, hnofin, hnopar]

/-- An empty concrete tree state used by the C7 example. -/
def c7ExState : NFTInner Nat :=
  { blocks := [], blocksByHash := [],
    finalizedBlockHeader := { parentHash := [], number := 0, digest := [] },
    finalizedBlockHash := [1], finalizedConsensus := .aura [1] 6,
    finality := .outsourced, currentBest := none,
    allowUnknownConsensusEngines := false }

/-- Claim C7, witness: a concrete header with an unknown all-zero parent
hash. -/
theorem c7_bad_parent_detection_witness :
    c7ExState.verify ⟨true, fun _ => []⟩
        (fun _ => some { parentHash := List.replicate 32 0, number := 1, digest := [] })
        (.ok (.aura false)) [7] 0 false =
      some (.headerErr c7ExState (.badParent (List.replicate 32 0))) :=
  (c7_bad_parent_detection _ _ _ c7ExState [7] 0 _ rfl (by decide) (by decide) (by decide)).1

/-! ## Claim C2: abort and drop leave the tree untouched -/

/-- The tree value carried inside a first-step body-verification outcome. -/
def step1Chain : BodyVerifyStep1 T → NFTInner T
  | .duplicate chain => chain
  | .invalidHeader chain => chain
  | .badParent chain _ => chain
  | .parentRuntimeRequired r => r.context.chain

/-- The tree value carried inside a later body-verification step. -/
def step2Chain : BodyVerifyStep2 T → NFTInner T
  | .finished _ _ ins => ins.context.chain
  | .error chain _ _ => chain
  | .storageGet g => g.context.chain
  | .storagePrefixKeys g => g.context.chain
  | .storageNextKey g => g.context.chain
  | .runtimeCompilation g => g.context.chain

theorem withBodyVerify_chain (E : ExternalOracles) (ctx : VerifyContext T)
    (iv : HBVerify) (st : BodyVerifyStep2 T) (h : ctx.withBodyVerify E iv = some st) :
    step2Chain st = ctx.chain := by
  cases iv with
  | finishedOk success =>
      cases happ : ctx.applySuccessBody E success.consensus with
      | none => simp [VerifyContext.withBodyVerify, happ] at h
      | some trip =>
          obtain ⟨b, cns, fin⟩ := trip
          simp only [VerifyContext.withBodyVerify, happ] at h
          cases h
          rfl
  | finishedErr e rt => cases h; rfl
  | storageGet k n => cases h; rfl
  | storageNextKey k n => cases h; rfl
  | storagePrefixKeys p n => cases h; rfl
  | runtimeCompilation n => cases h; rfl

theorem verify_body_chain (E : ExternalOracles) (decode : Bytes → Option Header)
    (hres : Except Nat SuccessConsensus) (s : NFTInner T) (raw : Bytes) (now : Nat)
    (step : BodyVerifyStep1 T)
    (h : s.verify E decode hres raw now true = some (.body step)) :
    step1Chain step = s := by
  simp only [NFTInner.verify] at h
  split at h
  · cases h; rfl
  · split at h
    · cases h; rfl
    · split at h
      · cases h; rfl
      · split at h
        · exact absurd h (by simp)
        · cases h; rfl

theorem verify_header_ok_chain (E : ExternalOracles) (decode : Bytes → Option Header)
    (hres : Except Nat SuccessConsensus) (s : NFTInner T) (raw : Bytes) (now : Nat)
    (ctx : VerifyContext T) (b : Bool) (c : BlockConsensus) (f : BlockFinality)
    (h : s.verify E decode hres raw now false = some (.headerOk ctx b c f)) :
    ctx.chain = s := by
  simp only [NFTInner.verify] at h
  split at h
  · exact absurd h (by simp)
  · split at h
    · exact absurd h (by simp)
    · split at h
      · exact absurd h (by simp)
      · split at h
        · exact absurd h (by simp)
        · simp only [Bool.false_eq_true, if_false] at h
          split at h
          · split at h
            · exact absurd h (by simp)
            · split at h
              · exact absurd h (by simp)
              · rename_i trip heq
                cases h
                rfl
          · split at h
            · exact absurd h (by simp)
            · split at h
              · exact absurd h (by simp)
              · rename_i trip heq
                cases h
                rfl
          · exact absurd h (by simp)
          · exact absurd h (by simp)

/-- Claim C2: no mutation of the tree occurs before `BodyInsert::insert` or
`HeaderInsert::insert`.  Every body-path step carries the pre-verification
tree unchanged: `BodyVerifyRuntimeRequired::abort` and `BodyInsert::abort`
return it, every later suspension (`StorageGet`, `StoragePrefixKeys`,
`StorageNextKey`, `RuntimeCompilation`) and every resumption preserves it, and
on the header path dropping the `HeaderInsert` handle (or `into_header`)
restores it.  In this version of the source only `BodyVerifyRuntimeRequired`
and `BodyInsert` expose an `abort` method; the other suspensions have none,
but they provably still hold the untouched tree. -/
theorem c2_abort_and_drop_frame {T : Type} :
    (∀ (E : ExternalOracles) (decode : Bytes → Option Header)
        (hres : Except Nat SuccessConsensus) (s : NFTInner T) (raw : Bytes) (now : Nat)
        (step : BodyVerifyStep1 T),
        s.verify E decode hres raw now true = some (.body step) →
        step1Chain step = s ∧
        (∀ r, step = .parentRuntimeRequired r → r.abort = s)) ∧
    (∀ (E : ExternalOracles) (decode : Bytes → Option Header)
        (hres : Except Nat SuccessConsensus) (s : NFTInner T) (raw : Bytes) (now : Nat)
        (ctx : VerifyContext T) (b : Bool) (c : BlockConsensus) (f : BlockFinality),
        s.verify E decode hres raw now false = some (.headerOk ctx b c f) →
        ctx.chain = s ∧ headerInsertDrop ctx = s ∧ (headerInsertIntoHeader ctx).1 = s) ∧
    (∀ (E : ExternalOracles) (r : BodyVerifyRuntimeRequired T) (rt : Nat)
        (process : HBVerify) (st : BodyVerifyStep2 T),
        r.resume E rt process = some st → step2Chain st = r.context.chain) ∧
    (∀ (E : ExternalOracles) (ctx : VerifyContext T) (iv : HBVerify)
        (st : BodyVerifyStep2 T),
        ctx.withBodyVerify E iv = some st → step2Chain st = ctx.chain) ∧
    (∀ (E : ExternalOracles) (g : StorageGetS T) (v : Option (Bytes × Nat))
        (st : BodyVerifyStep2 T),
        g.injectValue E v = some st → step2Chain st = g.context.chain) ∧
    (∀ (E : ExternalOracles) (g : StorageNextKeyS T) (k : Option Bytes)
        (st : BodyVerifyStep2 T),
        g.injectKey E k = some st → step2Chain st = g.context.chain) ∧
    (∀ (E : ExternalOracles) (g : StoragePrefixKeysS T) (ks : List Bytes)
        (st : BodyVerifyStep2 T),
        g.injectKeysOrdered E ks = some st → step2Chain st = g.context.chain) ∧
    (∀ (E : ExternalOracles) (g : RuntimeCompilationS T) (st : BodyVerifyStep2 T),
        g.build E = some st → step2Chain st = g.context.chain) ∧
    (∀ bi : BodyInsert T, bi.abort = bi.context.chain) := by
  refine ⟨?_, ?_, ?_, ?_, ?_, ?_, ?_, ?_, fun _ => rfl⟩
  · intro E decode hres s raw now step h
    refine ⟨verify_body_chain E decode hres s raw now step h, ?_⟩
    intro r hr
    subst hr
    exact verify_body_chain E decode hres s raw now _ h
  · intro E decode hres s raw now ctx b c f h
    have := verify_header_ok_chain E decode hres s raw now ctx b c f h
    exact ⟨this, this, this⟩
  · intro E r rt process st h
    unfold BodyVerifyRuntimeRequired.resume at h
    split at h
    · cases h; rfl
    · exact withBodyVerify_chain E r.context process st h
    · exact withBodyVerify_chain E r.context process st h
    · cases h; rfl
  · exact fun E ctx iv st h => withBodyVerify_chain E ctx iv st h
  · exact fun E g v st h => withBodyVerify_chain E g.context _ st h
  · exact fun E g k st h => withBodyVerify_chain E g.context _ st h
  · exact fun E g ks st h => withBodyVerify_chain E g.context _ st h
  · exact fun E g st h => withBodyVerify_chain E g.context _ st h

/-- An empty concrete tree state used by the C2 witness. -/
def c2ExState : NFTInner Nat :=
  { blocks := [], blocksByHash := [],
    finalizedBlockHeader := { parentHash := [], number := 0, digest := [] },
    finalizedBlockHash := [1], finalizedConsensus := .aura [1] 6,
    finality := .outsourced, currentBest := none,
    allowUnknownConsensusEngines := false }

/-- Claim C2, witness: a concrete body verification whose suspension aborts
back to the exact pre-verification tree. -/
theorem c2_abort_and_drop_frame_witness :
    BodyVerifyRuntimeRequired.abort
      { context :=
          { chain := c2ExState,
            parentTreeIndex := none,
            header := { parentHash := [1], number := 1, digest := [] },
            consensus := some (.aura [1]),
            finality := .outsourced },
        nowFromUnixEpoch := 0 } = c2ExState :=
  ((c2_abort_and_drop_frame.1) ⟨true, fun _ => []⟩
    (fun _ => some { parentHash := [1], number := 1, digest := [] })
    (.ok (.aura false)) c2ExState [7] 0 _ rfl).2 _ rfl

/-! ## Claim C8: insertion preserves the hash-index bijection -/

/-- The data a successful verification hands to an insert handle: parent index,
decoded header, block hash, the reported `is_new_best`, and the derived
consensus/finality tags, plus the user payload passed to `insert`. -/
structure InsertReq (T : Type) where
  parentTreeIndex : Option Nat
  header : Header
  hash : Bytes
  isNewBest : Bool
  consensus : BlockConsensus
  finality : BlockFinality
  userData : T
deriving DecidableEq

/-- One insert performed on the current tree (either handle runs the same
code, `insertBlock`). -/
def insertStep (s : NFTInner T) (r : InsertReq T) : Option (NFTInner T) :=
  insertBlock
    { chain := s, parentTreeIndex := r.parentTreeIndex, header := r.header,
      consensus := some r.consensus, finality := r.finality }
    r.hash r.isNewBest r.consensus r.finality r.userData

/-- A sequence of insert calls, stopping at the first panic. -/
def iterateInserts (s : NFTInner T) : List (InsertReq T) → Option (NFTInner T)
  | [] => some s
  | r :: rest =>
      match insertStep s r with
      | none => none
      | some s' => iterateInserts s' rest

/-- The structural part of the tree invariants from the spec: the arena and the
hash map have equal size, every mapped index points into the arena, and the
current best (when present) points into the arena. -/
def ValidTree (s : NFTInner T) : Prop :=
  s.blocks.length = s.blocksByHash.length ∧
  (∀ p ∈ s.blocksByHash, p.2 < s.blocks.length) ∧
  (∀ b ∈ s.currentBest, b < s.blocks.length)

theorem lookupHash_append (m1 m2 : List (Bytes × Nat)) (h : Bytes) :
    lookupHash (m1 ++ m2) h =
      match lookupHash m1 h with
      | some v => some v
      | none => lookupHash m2 h := by
  induction m1 with
  | nil => rfl
  | cons p rest ih =>
      by_cases hp : p.1 = h
      · simp [lookupHash, hp]
      · simp only [List.cons_append, lookupHash, if_neg hp]
        exact ih

theorem insertStep_spec (s : NFTInner T) (r : InsertReq T) (s' : NFTInner T)
    (hv : ValidTree s) (h : insertStep s r = some s') :
    ValidTree s' ∧
    s'.blocks.length = s'.blocksByHash.length ∧
    lookupHash s.blocksByHash r.hash = none ∧
    lookupHash s'.blocksByHash r.hash = some s.blocks.length ∧
    (s'.currentBest = some s.blocks.length ↔ r.isNewBest = true) := by
  obtain ⟨hlen, hidx, hbest⟩ := hv
  simp only [insertStep, insertBlock] at h
  split at h
  · exact absurd h (by simp)
  · rename_i hpar
    by_cases hdup : (lookupHash s.blocksByHash r.hash).isSome
    · rw [if_pos hdup] at h
      exact absurd h (by simp)
    · rw [if_neg hdup] at h
      cases h
      have hnone : lookupHash s.blocksByHash r.hash = none :=
        Option.not_isSome_iff_eq_none.mp hdup
      have hfound : lookupHash (s.blocksByHash ++ [(r.hash, s.blocks.length)]) r.hash =
          some s.blocks.length := by
        rw [lookupHash_append, hnone]
        simp [lookupHash]
      refine ⟨⟨?_, ?_, ?_⟩, ?_, hnone, hfound, ?_⟩
      · simp [hlen]
      · intro p hp
        simp only [List.mem_append, List.mem_singleton] at hp
        rcases hp with hp | hp
        · have := hidx p hp
          simp only [List.length_append, List.length_cons, List.length_nil]
          omega
        · subst hp
          simp
      · intro b hb
        simp only [List.length_append, List.length_cons, List.length_nil]
        cases hnew : r.isNewBest with
        | true =>
            rw [hnew] at hb
            simp only [if_pos] at hb
            simp only [Option.mem_def, Option.some_inj] at hb
            omega
        | false =>
            rw [hnew] at hb
            simp only [Bool.false_eq_true, if_false] at hb
            have := hbest b hb
            omega
      · simp [hlen]
      · cases hnew : r.isNewBest with
        | true => simp
        | false =>
            simp only [Bool.false_eq_true, if_false, iff_false, ne_eq]
            intro hcb
            have := hbest _ (by rw [hcb]; rfl)
            omega

theorem iterateInserts_valid (reqs : List (InsertReq T)) :
    ∀ (s s' : NFTInner T), ValidTree s → iterateInserts s reqs = some s' →
      ValidTree s' := by
  induction reqs with
  | nil => intro s s' hv h; cases h; exact hv
  | cons r rest ih =>
      intro s s' hv h
      simp only [iterateInserts] at h
      cases hstep : insertStep s r with
      | none => rw [hstep] at h; exact absurd h (by simp)
      | some sMid =>
          rw [hstep] at h
          exact ih sMid s' (insertStep_spec s r sMid hv hstep).1 h

/-- Claim C8: along every sequence of successful inserts starting from a valid
tree, each insertion keeps `blocks.len() == blocks_by_hash.len()`, the map
binds the inserted hash (previously absent) to the fresh node index, and
`current_best` is set to the fresh index exactly when `is_new_best` was
reported. -/
theorem c8_insertion_invariants {T : Type} (s0 : NFTInner T) (h0 : ValidTree s0)
    (pre : List (InsertReq T)) (r : InsertReq T) (sPre sNext : NFTInner T)
    (hpre : iterateInserts s0 pre = some sPre) (hstep : insertStep sPre r = some sNext) :
    sNext.blocks.length = sNext.blocksByHash.length ∧
    lookupHash sPre.blocksByHash r.hash = none ∧
    lookupHash sNext.blocksByHash r.hash = some sPre.blocks.length ∧
    (sNext.currentBest = some sPre.blocks.length ↔ r.isNewBest = true) := by
  have hv := iterateInserts_valid pre s0 sPre h0 hpre
  obtain ⟨_, h1, h2, h3, h4⟩ := insertStep_spec sPre r sNext hv hstep
  exact ⟨h1, h2, h3, h4⟩

/-- An empty concrete tree state used by the C8 witness. -/
def c8ExState : NFTInner Nat :=
  { blocks := [], blocksByHash := [],
    finalizedBlockHeader := { parentHash := [], number := 0, digest := [] },
    finalizedBlockHash := [1], finalizedConsensus := .aura [1] 6,
    finality := .outsourced, currentBest := none,
    allowUnknownConsensusEngines := false }

/-- A concrete insert request used by the C8 witness. -/
def c8ExReq : InsertReq Nat :=
  { parentTreeIndex := none,
    header := { parentHash := [1], number := 1, digest := [] },
    hash := [0xaa], isNewBest := true, consensus := .aura [1],
    finality := .outsourced, userData := 0 }

/-- Claim C8, witness: one concrete successful insert into the empty tree. -/
theorem c8_insertion_invariants_witness :
    ∃ sNext : NFTInner Nat, insertStep c8ExState c8ExReq = some sNext ∧
      (sNext.blocks.length = sNext.blocksByHash.length ∧
        lookupHash c8ExState.blocksByHash c8ExReq.hash = none ∧
        lookupHash sNext.blocksByHash c8ExReq.hash = some c8ExState.blocks.length ∧
        (sNext.currentBest = some c8ExState.blocks.length ↔ c8ExReq.isNewBest = true)) := by
  refine ⟨_, rfl, c8_insertion_invariants c8ExState ?_ [] c8ExReq c8ExState _ rfl rfl⟩
  refine ⟨rfl, ?_, ?_⟩ <;> simp [c8ExState]

/-! ## Trie root calculator: data model

Embedding of `src/lib/src/trie/calculate_root.rs`.  The cached trie structure
(`trie_structure::TrieStructure<CacheEntry>`, not under `src/`) is modelled
from the spec as a compressed radix-16 trie: each node carries its partial key
(a list of nibbles), whether it holds a storage value, the cached Merkle value
of the `CacheEntry` user data (`None` after invalidation), and its children as
a nibble-sorted association list.  Recursion over the trie is driven by an
explicit `Nat` fuel so that every definition evaluates inside the kernel;
exhausted fuel returns `none`, like a panic. -/

/-- A node of the cached trie structure. -/
inductive CNode : Type where
  | mk (pk : List Nat) (hasVal : Bool) (cached : Option Bytes)
      (children : List (Nat × CNode))

/-- The partial key of a node. -/
def CNode.pk : CNode → List Nat
  | .mk p _ _ _ => p

/-- Whether the node holds a storage value. -/
def CNode.hasVal : CNode → Bool
  | .mk _ h _ _ => h

/-- The cached Merkle value of a node (the `CacheEntry` user data). -/
def CNode.cachedTop : CNode → Option Bytes
  | .mk _ _ c _ => c

/-- The children of a node. -/
def CNode.children : CNode → List (Nat × CNode)
  | .mk _ _ _ k => k

/-- A possibly-empty trie structure. -/
abbrev TrieS := Option CNode

/-- The `CalculationCache`: `structure` is `None` until the first computation
builds it from `AllKeys`. -/
abbrev Cache := Option TrieS

/-- A finite key/value store, as driven by the example loop in the module doc
and the tests of `calculate_root.rs`: an association list of byte keys to byte
values, every request answered with one fixed `TrieEntryVersion`. -/
abbrev Store := List (Bytes × Bytes)

/-- The storage-value version (`TrieEntryVersion`). -/
inductive TrieVer where
  | v0
  | v1
deriving DecidableEq

/-- Store lookup (`BTreeMap::get`). -/
def storeGet : Store → Bytes → Option Bytes
  | [], _ => none
  | p :: rest, k => if p.1 = k then some p.2 else storeGet rest k

/-- Longest common prefix of two nibble strings. -/
def lcp : List Nat → List Nat → List Nat
  | a :: as_, b :: bs => if a = b then a :: lcp as_ bs else []
  | _, _ => []

/-- Child lookup by nibble. -/
def childGet : List (Nat × CNode) → Nat → Option CNode
  | [], _ => none
  | (m, c) :: rest, n => if m = n then some c else childGet rest n

/-- Child insertion/replacement keeping the list nibble-sorted (child indices
are iterated strictly in order `0..15`). -/
def childSet : List (Nat × CNode) → Nat → CNode → List (Nat × CNode)
  | [], n, c => [(n, c)]
  | (m, d) :: rest, n, c =>
      if n = m then (n, c) :: rest
      else if n < m then (n, c) :: (m, d) :: rest
      else (m, d) :: childSet rest n c

/-- Child removal by nibble. -/
def childRemove : List (Nat × CNode) → Nat → List (Nat × CNode)
  | [], _ => []
  | (m, d) :: rest, n => if m = n then rest else (m, d) :: childRemove rest n

/-! ## Node encoding and Merkle values

Modelled from the spec: `trie_node::calculate_merkle_value` is not under
`src/`.  The format is pinned by the byte-exact vectors inside the tests of
`calculate_root.rs` (`trie_root_single_tuple` and `trie_root_example`): a
header byte with 2–4 tag bits and a saturating nibble count, the packed
partial key, a 16-bit little-endian children bitmap, the SCALE-compact
length-prefixed storage value (or its raw 32-byte Blake2b hash when stored
hashed), and the compact length-prefixed child Merkle values in nibble
order. -/

/-- Saturating tail of the header nibble count. -/
def hdrRestGo : Nat → Nat → Bytes
  | 0, r => [r]
  | fuel + 1, r => if r < 255 then [r] else 255 :: hdrRestGo fuel (r - 255)

/-- Header byte(s): tag value plus a length in the remaining `bits` bits,
saturating into follow-up bytes. -/
def hdrBytes (tag bits n : Nat) : Bytes :=
  let mask := 2 ^ bits - 1
  if n < mask then [tag + n] else (tag + mask) :: hdrRestGo n (n - mask)

/-- Pack pairs of nibbles into bytes. -/
def packPairs : List Nat → Bytes
  | [] => []
  | [x] => [x % 16]
  | a :: b :: rest => (a % 16 * 16 + b % 16) :: packPairs rest

/-- Pack a partial key: an odd nibble count puts the first nibble alone in the
first byte. -/
def packNibbles (nibs : List Nat) : Bytes :=
  if nibs.length % 2 = 1 then nibs.headD 0 % 16 :: packPairs nibs.tail
  else packPairs nibs

/-- The 16-bit little-endian children bitmap. -/
def childrenBitmap (ns : List Nat) : Bytes :=
  let bm := ns.foldl (fun acc n => acc ||| 2 ^ (n % 16)) 0
  [bm % 256, bm / 256 % 256]

/-- SCALE compact encoding of a length. -/
def compactLen (n : Nat) : Bytes :=
  if n < 2 ^ 6 then [n * 4]
  else if n < 2 ^ 14 then [n * 4 % 256 + 1, n * 4 / 256]
  else if n < 2 ^ 30 then
    [n * 4 % 256 + 2, n * 4 / 256 % 256, n * 4 / 256 ^ 2 % 256, n * 4 / 256 ^ 3 % 256]
  else
    let m := 4 + (Nat.log2 n + 1) / 8
    ((m - 4) * 4 + 3) :: (List.range m).map (fun i => n / 256 ^ i % 256)

/-- The storage value stored inside a node encoding: absent, inline, or the
32-byte hash of the value (version 1, length at least 33). -/
inductive StorageVal where
  | noval
  | unhashed (v : Bytes)
  | hashed (h : Bytes)
deriving DecidableEq

/-- The node encoding: header, packed partial key, then for leaves the value,
and for branches the bitmap, the value and the child Merkle values. -/
def encodeNode (pk : List Nat) (childMVs : List (Nat × Bytes)) (sv : StorageVal) : Bytes :=
  let hdr : Bytes :=
    match childMVs, sv with
    | [], .noval => [0]
    | [], .unhashed _ => hdrBytes 64 6 pk.length
    | [], .hashed _ => hdrBytes 32 5 pk.length
    | _ :: _, .noval => hdrBytes 128 6 pk.length
    | _ :: _, .unhashed _ => hdrBytes 192 6 pk.length
    | _ :: _, .hashed _ => hdrBytes 16 4 pk.length
  let valuePart : Bytes :=
    match sv with
    | .noval => []
    | .unhashed v => compactLen v.length ++ v
    | .hashed h => h
  match childMVs with
  | [] => hdr ++ packNibbles pk ++ valuePart
  | _ =>
      hdr ++ packNibbles pk ++ childrenBitmap (childMVs.map (fun p => p.1)) ++
        valuePart ++ (childMVs.map (fun p => compactLen p.2.length ++ p.2)).flatten

/-- The Merkle value of a node: its encoding when shorter than 32 bytes, else
its Blake2b-256 hash; the root node is always hashed (its Merkle value is the
32-byte root hash). -/
def merkleValue (enc : Bytes) (isRoot : Bool) : Bytes :=
  if isRoot ∨ 32 ≤ enc.length then blake2b256 enc else enc

/-! ## Building the structure from `AllKeys` -/

/-- Modelled from the spec: insertion of one key into the structural skeleton
during `AllKeys::inject` (lines 410–431).  The source calls
`structure.node(key).into_vacant().unwrap().insert_storage_value()`; an
occupied position therefore panics (`none`).  A vacant position inserts either
one node (hanging off an existing node, or absorbing the single mid-edge
descendant as its child) or a branch node plus a storage node on divergence. -/
def buildInsert : Nat → List Nat → CNode → Option CNode
  | 0, _, _ => none
  | fuel + 1, k, .mk pk hv cached kids =>
      if k = pk then none
      else if pk.isPrefixOf k then
        let n := k.getD pk.length 0
        let rest := k.drop (pk.length + 1)
        match childGet kids n with
        | some c =>
            (buildInsert fuel rest c).map (fun c' => .mk pk hv cached (childSet kids n c'))
        | none => some (.mk pk hv cached (childSet kids n (.mk rest true none [])))
      else if k.isPrefixOf pk then
        some (.mk k true none
          [(pk.getD k.length 0, .mk (pk.drop (k.length + 1)) hv cached kids)])
      else
        let common := lcp pk k
        let l := common.length
        let oldNode := CNode.mk (pk.drop (l + 1)) hv cached kids
        let newLeaf := CNode.mk (k.drop (l + 1)) true none []
        some (.mk common false none
          (childSet (childSet [] (pk.getD l 0) oldNode) (k.getD l 0) newLeaf))

/-- Build the trie skeleton by inserting every key of the store in order,
starting from the accumulated structure (`AllKeys::inject`). -/
def buildTrieGo (fuel : Nat) : TrieS → List (List Nat) → Option TrieS
  | acc, [] => some acc
  | none, k :: rest => buildTrieGo fuel (some (.mk k true none [])) rest
  | some root, k :: rest =>
      match buildInsert fuel k root with
      | none => none
      | some root' => buildTrieGo fuel (some root') rest

/-- Build the trie skeleton of a key list, starting from the empty trie. -/
def buildTrie (fuel : Nat) (keys : List (List Nat)) : Option TrieS :=
  buildTrieGo fuel none keys

/-! ## The depth-first computation (`CalcInner::next` and the injections) -/

/-- Sequence a fallible function over a list (the iterator loops of the
source). -/
def optMap {A B : Type} (f : A → Option B) : List A → Option (List B)
  | [] => some []
  | a :: rest =>
      match f a, optMap f rest with
      | some b, some bs => some (b :: bs)
      | _, _ => none

/-- The `StorageValue::inject` treatment of a requested value (lines 456–507):
a reported key without a value in the store is the user-misbehaviour panic;
under version 1 a value of length at least 33 is stored hashed, otherwise
inline. -/
def storageValFor (ver : TrieVer) (sigma : Store) (key : Bytes) : Option StorageVal :=
  match storeGet sigma key with
  | none => none
  | some v =>
      some (if ver = TrieVer.v1 ∧ 33 ≤ v.length then StorageVal.hashed (blake2b256 v)
        else StorageVal.unhashed v)

/-- Embedding of the depth-first traversal of `CalcInner::next` together with
`StorageValue::inject`, in denotational form: a node whose Merkle value is
cached is reused without entering its subtree; otherwise the children are
computed first (the traversal is child-then-sibling-then-parent, so all child
values are available), then the storage value at the full key of the node is
requested when the node has one, and the Merkle value of the node encoding is
stored into the cache.  Panics (a storage value missing from the store, an odd
full key) and exhausted fuel are `none`. -/
def fillMV : Nat → TrieVer → Store → List Nat → Bool → CNode → Option CNode
  | 0, _, _, _, _, _ => none
  | fuel + 1, ver, sigma, pre, isRoot, .mk pk hv cached kids =>
      match cached with
      | some v => some (.mk pk hv (some v) kids)
      | none => do
          let kids' ← optMap (fun p =>
            (fillMV fuel ver sigma (pre ++ pk ++ [p.1]) false p.2).map (fun c => (p.1, c)))
            kids
          let childMVs ← optMap (fun p => (p.2.cachedTop).map (fun mv => (p.1, mv))) kids'
          let sv ←
            if hv then (nibblesToBytes (pre ++ pk)).bind (storageValFor ver sigma)
            else some StorageVal.noval
          some (.mk pk hv (some (merkleValue (encodeNode pk childMVs sv) isRoot)) kids')

/-- Embedding of driving `root_merkle_value` to completion over a store, the
loop of the module doc example and of the tests: requests for `AllKeys` are
answered with the store keys in store order, requests for a storage value with
the store entry tagged with the fixed version `ver`.  Returns the root hash
and the filled cache of the `Finished` variant. -/
def rootCalc (fuel : Nat) (ver : TrieVer) (sigma : Store) (cache : Cache) :
    Option (Bytes × Cache) :=
  let st : Option TrieS :=
    match cache with
    | some t => some t
    | none => buildTrie fuel (sigma.map (fun p => bytesToNibbles p.1))
  match st with
  | none => none
  | some none => some (merkleValue (encodeNode [] [] .noval) true, some none)
  | some (some root) =>
      match fillMV fuel ver sigma [] true root with
      | none => none
      | some root' =>
          match root'.cachedTop with
          | none => none
          | some mv => some (mv, some (some root'))

/-! ##`CalculationCache::storage_value_update` -/

/-- How Merkle-value invalidation propagates from a structural change to the
ancestors, following `storage_value_update` (lines 110–181): `stop` means no
further invalidation, `uncond` means the parent is the `node_to_invalidate`
and is nulled unconditionally (line 170), `early` means the parent sits in the
ancestor loop (lines 171–180), which nulls it and continues unless its Merkle
value is already absent. -/
inductive PMode where
  | stop
  | uncond
  | early
deriving DecidableEq

/-- Apply the propagation at an ancestor node holding `cached`. -/
def applyPMode (mode : PMode) (cached : Option Bytes) : Option Bytes × PMode :=
  match mode with
  | .stop => (cached, .stop)
  | .uncond => (none, .early)
  | .early => if cached.isSome then (none, .early) else (cached, .stop)

/-- Embedding of the insertion half of `storage_value_update` (`has_value =
true`, lines 110–151 and 169–180), with the structural part of
`trie_structure` modelled from the spec.  Cases on the relative position of
the remaining key `k` and the partial key:
position occupied — insert the value, null the node and propagate with the
early-stopping loop;
descend — recurse into the child, applying the propagation at this node;
vacant below with no child — one new leaf, the parent (this node) is nulled
unconditionally;
vacant mid-edge (`k` a proper prefix) — one new storage node absorbing the
existing node as its single child, whose user data the source does not touch
(the displaced child keeps its cached Merkle value), with
`inserted.into_parent()` nulled unconditionally;
divergence — a new branch and a new leaf, all children of the branch nulled
(lines 126–135), `inserted_branch.into_parent()` nulled unconditionally. -/
def svuInsert : Nat → List Nat → CNode → Option (CNode × PMode)
  | 0, _, _ => none
  | fuel + 1, k, .mk pk hv cached kids =>
      if k = pk then
        some (.mk pk true none kids, .early)
      else if pk.isPrefixOf k then
        let n := k.getD pk.length 0
        let rest := k.drop (pk.length + 1)
        match childGet kids n with
        | some c =>
            match svuInsert fuel rest c with
            | none => none
            | some (c', mode) =>
                let cm := applyPMode mode cached
                some (.mk pk hv cm.1 (childSet kids n c'), cm.2)
        | none =>
            some (.mk pk hv none (childSet kids n (.mk rest true none [])), .early)
      else if k.isPrefixOf pk then
        some (.mk k true none
          [(pk.getD k.length 0, .mk (pk.drop (k.length + 1)) hv cached kids)], .uncond)
      else
        let common := lcp pk k
        let l := common.length
        let oldNode := CNode.mk (pk.drop (l + 1)) hv none kids
        let newLeaf := CNode.mk (k.drop (l + 1)) true none []
        some (.mk common false none
          (childSet (childSet [] (pk.getD l 0) oldNode) (k.getD l 0) newLeaf), .uncond)

/-- Embedding of the removal half of `storage_value_update` (`has_value =
false`, lines 152–180), with the `trie_structure::Remove` variants modelled
from the spec.  The first component is the replacement subtree (`none` when
the node was removed entirely, left for the caller to resolve):
`StorageToBranch` — two or more children, the value is dropped and the node
nulled; `SingleRemoveChild` — exactly one child, which merges upward and is
nulled; a removed leaf bubbles to the parent, which either stays
(`SingleRemoveNoChild`, nulled), collapses into the merged sibling
(`BranchAlsoRemoved`, the sibling nulled), or leaves the trie empty
(`TrieNowEmpty`). -/
def svuRemove : Nat → List Nat → CNode → Option (Option CNode × PMode)
  | 0, _, _ => none
  | fuel + 1, k, .mk pk hv cached kids =>
      if k = pk then
        if hv then
          match kids with
          | [] => some (none, .stop)
          | [(n, c)] =>
              some (some (.mk (pk ++ n :: c.pk) c.hasVal none c.children), .early)
          | _ => some (some (.mk pk false none kids), .early)
        else
          some (some (.mk pk hv cached kids), .stop)
      else if pk.isPrefixOf k then
        let n := k.getD pk.length 0
        let rest := k.drop (pk.length + 1)
        match childGet kids n with
        | none => some (some (.mk pk hv cached kids), .stop)
        | some c =>
            match svuRemove fuel rest c with
            | none => none
            | some (some c', mode) =>
                let cm := applyPMode mode cached
                some (some (.mk pk hv cm.1 (childSet kids n c')), cm.2)
            | some (none, _) =>
                let kids' := childRemove kids n
                if hv ∨ 2 ≤ kids'.length then
                  some (some (.mk pk hv none kids'), .early)
                else
                  match kids' with
                  | [(m, s)] =>
                      some (some (.mk (pk ++ m :: s.pk) s.hasVal none s.children), .early)
                  | _ => some (none, .stop)
      else
        some (some (.mk pk hv cached kids), .stop)

/-- Embedding of `CalculationCache::storage_value_update` (lines 100–181): a
cache without structure is left untouched; otherwise the structure is updated
and Merkle values invalidated as described by `svuInsert` / `svuRemove`. -/
def storageValueUpdate (fuel : Nat) (c : Cache) (key : Bytes) (hasValue : Bool) :
    Option Cache :=
  match c with
  | none => some none
  | some t =>
      let k := bytesToNibbles key
      if hasValue then
        match t with
        | none => some (some (some (.mk k true none [])))
        | some root => (svuInsert fuel k root).map (fun p => some (some p.1))
      else
        match t with
        | none => some (some none)
        | some root => (svuRemove fuel k root).map (fun p => some p.1)

/-! ## `CalculationCache::prefix_remove_update` -/

/-- Modelled from the spec: `trie_structure::remove_prefix` removes the whole
subtree whose keys start with the given prefix (collapsing a branch left with
a single child and no value), and `prefix_remove_update` (lines 185–201) nulls
the Merkle value of the affected node and of every ancestor, without early
stop.  The boolean reports whether anything was removed. -/
def rpGo : Nat → List Nat → CNode → Option (Option CNode × Bool)
  | 0, _, _ => none
  | fuel + 1, p, .mk pk hv cached kids =>
      if p.isPrefixOf pk then
        some (none, true)
      else if pk.isPrefixOf p then
        let n := p.getD pk.length 0
        let rest := p.drop (pk.length + 1)
        match childGet kids n with
        | none => some (some (.mk pk hv cached kids), false)
        | some c =>
            match rpGo fuel rest c with
            | none => none
            | some (_, false) => some (some (.mk pk hv cached kids), false)
            | some (some c', true) =>
                some (some (.mk pk hv none (childSet kids n c')), true)
            | some (none, true) =>
                let kids' := childRemove kids n
                if hv ∨ 2 ≤ kids'.length then
                  some (some (.mk pk hv none kids'), true)
                else
                  match kids' with
                  | [(m, s)] =>
                      some (some (.mk (pk ++ m :: s.pk) s.hasVal none s.children), true)
                  | _ => some (none, true)
      else
        some (some (.mk pk hv cached kids), false)

/-- Embedding of `CalculationCache::prefix_remove_update` (lines 185–201):
update the structure; when nothing was removed the source still nulls the
Merkle value of the root node. -/
def prefixRemoveUpdate (fuel : Nat) (c : Cache) (pfx : Bytes) : Option Cache :=
  match c with
  | none => some none
  | some none => some (some none)
  | some (some root) =>
      match rpGo fuel (bytesToNibbles pfx) root with
      | none => none
      | some (r, true) => some (some r)
      | some (some r, false) => some (some (some (.mk r.pk r.hasVal none r.children)))
      | some (none, false) => some (some none)

/-! ## Validation of the trie embedding against the byte-exact vectors of
`calculate_root.rs` -/

/-- The root of the module-doc example `{"foo" → "bar"}` under version 1
matches the hash asserted in the doc test. -/
theorem rootCalc_matches_doc_example :
    (rootCalc 100 .v1 [([0x66, 0x6f, 0x6f], [0x62, 0x61, 0x72])] none).map Prod.fst =
      some [204, 86, 28, 213, 155, 206, 247, 145, 28, 169, 212, 146, 182, 159, 224, 82,
        116, 162, 143, 156, 19, 43, 183, 8, 41, 178, 204, 69, 41, 37, 224, 91] := by
  decide

/-- The root of `{"abcd" → "hello world"}` matches the hash asserted in the
`trie_root_one_node` test, under both versions. -/
theorem rootCalc_matches_trie_root_one_node :
    ((rootCalc 100 .v0
        [([0x61, 0x62, 0x63, 0x64],
          [0x68, 0x65, 0x6c, 0x6c, 0x6f, 0x20, 0x77, 0x6f, 0x72, 0x6c, 0x64])] none).map
      Prod.fst =
        some [122, 177, 134, 89, 211, 178, 120, 158, 242, 64, 13, 16, 113, 4, 199, 212,
          251, 147, 208, 109, 154, 182, 168, 182, 65, 165, 222, 124, 63, 236, 200, 81]) ∧
    ((rootCalc 100 .v1
        [([0x61, 0x62, 0x63, 0x64],
          [0x68, 0x65, 0x6c, 0x6c, 0x6f, 0x20, 0x77, 0x6f, 0x72, 0x6c, 0x64])] none).map
      Prod.fst =
        some [122, 177, 134, 89, 211, 178, 120, 158, 242, 64, 13, 16, 113, 4, 199, 212,
          251, 147, 208, 109, 154, 182, 168, 182, 65, 165, 222, 124, 63, 236, 200, 81]) := by
  constructor <;> decide

/-- The root of `{[0xaa] → [0xbb]}` is the Blake2b hash of the leaf encoding
given byte-for-byte in the `trie_root_single_tuple` test. -/
theorem rootCalc_matches_trie_root_single_tuple :
    (rootCalc 100 .v0 [([0xaa], [0xbb])] none).map Prod.fst =
      some (blake2b256 [0x42, 0xaa, 1 <<< 2, 0xbb]) := by
  decide

/-- The root of the two-entry store is the Blake2b hash of the branch encoding
given byte-for-byte in the `trie_root_example` test. -/
theorem rootCalc_matches_trie_root_example :
    (rootCalc 100 .v0 [([0x13, 0x14], [0xff]), ([0x48, 0x19], [0xfe])] none).map Prod.fst =
      some (blake2b256 [0x80, 0x12, 0x00, 0x05 <<< 2, 0x43, 0x03, 0x14, 0x01 <<< 2, 0xff,
        0x05 <<< 2, 0x43, 0x08, 0x19, 0x01 <<< 2, 0xfe]) := by
  decide

/-! ## Claim C1: cache equivalence of the trie root calculation -/

/-- The store before the mutation of the C1 scenario. -/
def c1Store : Store := [([0x12, 0x34], [0xbb])]

/-- The store after inserting a value at key `[0x12]`, a proper prefix of the
existing key. -/
def c1StoreMut : Store := [([0x12], [0xaa]), ([0x12, 0x34], [0xbb])]

/-- The root over the mutated store computed with the cache of the first
computation, primed by `storage_value_update([0x12], true)`. -/
def c1CachedRoot : Option Bytes := do
  let r1 ← rootCalc 100 .v1 c1Store none
  let updated ← storageValueUpdate 100 r1.2 [0x12] true
  let r2 ← rootCalc 100 .v1 c1StoreMut updated
  pure r2.1

/-- The root over the mutated store computed from scratch. -/
def c1FreshRoot : Option Bytes := (rootCalc 100 .v1 c1StoreMut none).map Prod.fst

/-- Claim C1, failing input: inserting a storage value at `[0x12]`, a proper
prefix of the existing key `[0x12, 0x34]`, splits the single-node trie
mid-edge.  The new node absorbs the old node as its only child and the
partial key of that child shrinks, but the `PrepareInsert::One` arm of
`storage_value_update` (lines 114–122) nulls only the parent chain of the
inserted node, so the displaced child keeps its stale cached Merkle value and
the primed-cache root differs from the fresh root, contradicting cache
equivalence.  Both computations complete (no panic). -/
theorem c1_cache_prefix_insert_incorrect_root :
    c1CachedRoot.isSome = true ∧ c1FreshRoot.isSome = true ∧
      c1CachedRoot ≠ c1FreshRoot := by
  refine ⟨by decide, by decide, by decide⟩

/-- Control: a mutation of the value of an existing key (the pattern exercised
by the `cache_up_to_date` test of the source) keeps the primed cache
equivalent to a fresh computation. -/
theorem c1_control_modify_existing_key :
    (do
      let r1 ← rootCalc 100 .v1 c1Store none
      let updated ← storageValueUpdate 100 r1.2 [0x12, 0x34] true
      let r2 ← rootCalc 100 .v1 [([0x12, 0x34], [0xcc])] updated
      pure r2.1) =
      (rootCalc 100 .v1 [([0x12, 0x34], [0xcc])] none).map Prod.fst ∧
    ((rootCalc 100 .v1 [([0x12, 0x34], [0xcc])] none).map Prod.fst).isSome = true := by
  constructor <;> decide

/-- Control: removing a key (also exercised by the `cache_up_to_date` test)
keeps the primed cache equivalent to a fresh computation, including the
branch-collapse invalidation. -/
theorem c1_control_remove_key :
    (do
      let r1 ← rootCalc 100 .v1 c1StoreMut none
      let updated ← storageValueUpdate 100 r1.2 [0x12] false
      let r2 ← rootCalc 100 .v1 c1Store updated
      pure r2.1) =
      (rootCalc 100 .v1 c1Store none).map Prod.fst ∧
    ((rootCalc 100 .v1 c1Store none).map Prod.fst).isSome = true := by
  constructor <;> decide

/-- Control: extending an existing key (the insertion pattern generated by the
`cache_up_to_date` test) keeps the primed cache equivalent to a fresh
computation. -/
theorem c1_control_extension_insert :
    (do
      let r1 ← rootCalc 100 .v1 c1Store none
      let updated ← storageValueUpdate 100 r1.2 [0x12, 0x34, 0x56] true
      let r2 ← rootCalc 100 .v1 [([0x12, 0x34], [0xbb]), ([0x12, 0x34, 0x56], [0xdd])] updated
      pure r2.1) =
      (rootCalc 100 .v1 [([0x12, 0x34], [0xbb]), ([0x12, 0x34, 0x56], [0xdd])] none).map
        Prod.fst := by
  decide

/-! ## Claim C9: version agnosticism on short values -/

/-- Every storage value of the store is strictly shorter than 33 bytes. -/
def ValuesShort (sigma : Store) : Prop :=
  ∀ k v, storeGet sigma k = some v → v.length < 33

theorem storageValFor_version (sigma : Store) (hvs : ValuesShort sigma) (key : Bytes) :
    storageValFor .v0 sigma key = storageValFor .v1 sigma key := by
  unfold storageValFor
  cases hsg : storeGet sigma key with
  | none => rfl
  | some v =>
      have hlen := hvs key v hsg
      have hno : ¬(33 ≤ v.length) := by omega
      simp [hno]

theorem fillMV_version (sigma : Store) (hvs : ValuesShort sigma) :
    ∀ fuel pre isRoot t,
      fillMV fuel .v0 sigma pre isRoot t = fillMV fuel .v1 sigma pre isRoot t := by
  intro fuel
  induction fuel with
  | zero => intro pre isRoot t; rfl
  | succ fuel ih =>
      intro pre isRoot t
      cases t with
      | mk pk hv cached kids =>
          cases cached with
          | some v => rfl
          | none =>
              simp only [fillMV]
              have h1 : (fun p : Nat × CNode =>
                  (fillMV fuel .v0 sigma (pre ++ pk ++ [p.1]) false p.2).map
                    (fun c => (p.1, c))) =
                  (fun p : Nat × CNode =>
                    (fillMV fuel .v1 sigma (pre ++ pk ++ [p.1]) false p.2).map
                      (fun c => (p.1, c))) := by
                funext p
                rw [ih]
              have h2 : storageValFor TrieVer.v0 sigma = storageValFor TrieVer.v1 sigma :=
                funext (storageValFor_version sigma hvs)
              rw [h1, h2]

/-- Claim C9: for every store whose values are all strictly shorter than 33
bytes, driving `root_merkle_value` with every request answered under version 0
produces the same outcome as answering under version 1 (hashing of a value
into the node encoding happens only under version 1 with length at least 33);
and for the empty store both versions yield the Blake2b-256 hash of the single
byte `0x00`. -/
theorem c9_version_agnosticism_short_values (fuel : Nat) (sigma : Store)
    (hvs : ValuesShort sigma) :
    rootCalc fuel .v0 sigma none = rootCalc fuel .v1 sigma none ∧
    (∀ (ver : TrieVer) (fuel2 : Nat),
      rootCalc fuel2 ver [] none = some (blake2b256 [0x00], some none)) := by
  constructor
  · cases hb : buildTrie fuel (sigma.map (fun p => bytesToNibbles p.1)) with
    | none => simp [rootCalc, hb]
    | some t =>
        cases t with
        | none => simp [rootCalc, hb]
        | some root => simp [rootCalc, hb, fillMV_version sigma hvs fuel [] true root]
  · intro ver fuel2
    rfl

/-- Claim C9, witness: the single-entry store `{[0xaa] → [0xbb]}` produces the
same root under both versions. -/
theorem c9_version_agnosticism_short_values_witness :
    rootCalc 100 .v0 [([0xaa], [0xbb])] none = rootCalc 100 .v1 [([0xaa], [0xbb])] none :=
  (c9_version_agnosticism_short_values 100 [([0xaa], [0xbb])] (by
    intro k v h
    simp only [storeGet] at h
    split at h
    · cases h; decide
    · simp [storeGet] at h)).1

/-! ## Claim C10: upward-closed invalidation in the cache -/

/-- The implicit cache invariant: in every observable cache, the set of nodes
whose cached Merkle value is absent is closed under taking parents —
equivalently, a node whose Merkle value is present has all its children
present (locally, at every node of the trie). -/
inductive InvOK : CNode → Prop where
  | node (pk : List Nat) (hv : Bool) (cached : Option Bytes)
      (kids : List (Nat × CNode))
      (hkids : ∀ p ∈ kids, InvOK p.2)
      (hdown : cached.isSome = true → ∀ p ∈ kids, (p.2).cachedTop.isSome = true) :
      InvOK (.mk pk hv cached kids)

/-- Every node of the trie carries a cached Merkle value. -/
inductive AllSome : CNode → Prop where
  | node (pk : List Nat) (hv : Bool) (v : Bytes) (kids : List (Nat × CNode))
      (hkids : ∀ p ∈ kids, AllSome p.2) :
      AllSome (.mk pk hv (some v) kids)

/-- No node of the trie carries a cached Merkle value (a freshly built
skeleton). -/
inductive AllNone : CNode → Prop where
  | node (pk : List Nat) (hv : Bool) (kids : List (Nat × CNode))
      (hkids : ∀ p ∈ kids, AllNone p.2) :
      AllNone (.mk pk hv none kids)

theorem AllSome.cachedTop_isSome {t : CNode} (h : AllSome t) :
    t.cachedTop.isSome = true := by
  cases h with
  | node pk hv v kids hkids => rfl

theorem allSome_invOK {t : CNode} (h : AllSome t) : InvOK t := by
  induction h with
  | node pk hv v kids hkids ih =>
      exact .node pk hv (some v) kids ih
        (fun _ p hp => (hkids p hp).cachedTop_isSome)

theorem allNone_invOK {t : CNode} (h : AllNone t) : InvOK t := by
  induction h with
  | node pk hv kids hkids ih =>
      exact .node pk hv none kids ih (fun hcontra => by cases hcontra)

theorem InvOK.allSome_of_top {t : CNode} (h : InvOK t) :
    t.cachedTop.isSome = true → AllSome t := by
  induction h with
  | node pk hv cached kids hkids hdown ih =>
      intro htop
      cases cached with
      | none => cases htop
      | some v =>
          exact AllSome.node pk hv v kids
            (fun p hp => ih p hp (hdown rfl p hp))

theorem childGet_mem (kids : List (Nat × CNode)) (n : Nat) (c : CNode)
    (h : childGet kids n = some c) : (n, c) ∈ kids := by
  induction kids with
  | nil => cases h
  | cons p rest ih =>
      simp only [childGet] at h
      split at h
      · cases h
        rename_i hm
        subst hm
        exact List.mem_cons_self _ _
      · exact List.mem_cons_of_mem _ (ih h)

theorem childSet_mem (kids : List (Nat × CNode)) (n : Nat) (c : CNode) :
    ∀ p ∈ childSet kids n c, p = (n, c) ∨ p ∈ kids := by
  induction kids with
  | nil => intro p hp; simp only [childSet, List.mem_singleton] at hp; exact Or.inl hp
  | cons q rest ih =>
      intro p hp
      simp only [childSet] at hp
      split at hp
      · rcases List.mem_cons.mp hp with h | h
        · exact Or.inl h
        · exact Or.inr (List.mem_cons_of_mem _ h)
      · split at hp
        · rcases List.mem_cons.mp hp with h | h
          · exact Or.inl h
          · exact Or.inr h
        · rcases List.mem_cons.mp hp with h | h
          · exact Or.inr (by rw [h]; exact List.mem_cons_self _ _)
          · rcases ih p h with h' | h'
            · exact Or.inl h'
            · exact Or.inr (List.mem_cons_of_mem _ h')

theorem childRemove_mem (kids : List (Nat × CNode)) (n : Nat) :
    ∀ p ∈ childRemove kids n, p ∈ kids := by
  induction kids with
  | nil => intro p hp; cases hp
  | cons q rest ih =>
      intro p hp
      simp only [childRemove] at hp
      split at hp
      · exact List.mem_cons_of_mem _ hp
      · rcases List.mem_cons.mp hp with h | h
        · rw [h]; exact List.mem_cons_self _ _
        · exact List.mem_cons_of_mem _ (ih p h)

theorem optMap_mem {A B : Type} (f : A → Option B) :
    ∀ (l : List A) (l' : List B), optMap f l = some l' →
      ∀ b ∈ l', ∃ a ∈ l, f a = some b := by
  intro l
  induction l with
  | nil =>
      intro l' h b hb
      cases h
      cases hb
  | cons a rest ih =>
      intro l' h b hb
      simp only [optMap] at h
      cases hfa : f a with
      | none =>
          simp only [hfa] at h
          exact Option.noConfusion h
      | some b0 =>
          cases hrest : optMap f rest with
          | none =>
              simp only [hfa, hrest] at h
              exact Option.noConfusion h
          | some bs =>
              simp only [hfa, hrest] at h
              cases h
              rcases List.mem_cons.mp hb with h' | h'
              · exact ⟨a, List.mem_cons_self _ _, by rw [hfa, h']⟩
              · obtain ⟨a', ha', hfa'⟩ := ih bs hrest b h'
                exact ⟨a', List.mem_cons_of_mem _ ha', hfa'⟩

theorem fillMV_allSome :
    ∀ (fuel : Nat) (ver : TrieVer) (sigma : Store) (pre : List Nat) (isRoot : Bool)
      (t t' : CNode), InvOK t → fillMV fuel ver sigma pre isRoot t = some t' →
      AllSome t' := by
  intro fuel
  induction fuel with
  | zero =>
      intro _ _ _ _ t t' _ h
      cases h
  | succ fuel ih =>
      intro ver sigma pre isRoot t t' hinv h
      cases t with
      | mk pk hv cached kids =>
          cases cached with
          | some v =>
              simp only [fillMV] at h
              cases h
              exact hinv.allSome_of_top rfl
          | none =>
              simp only [fillMV, bind, Option.bind] at h
              cases hk : optMap (fun p =>
                  (fillMV fuel ver sigma (pre ++ pk ++ [p.1]) false p.2).map
                    (fun c => (p.1, c))) kids with
              | none =>
                  simp only [hk] at h
                  exact Option.noConfusion h
              | some kids' =>
                  simp only [hk] at h
                  have hall : ∀ p ∈ kids', AllSome p.2 := by
                    cases hinv with
                    | node _ _ _ _ hkids hdown =>
                        intro p hp
                        obtain ⟨q, hq, hfq⟩ := optMap_mem _ kids kids' hk p hp
                        obtain ⟨c', hc', hpc⟩ := Option.map_eq_some'.mp hfq
                        have hcs : AllSome c' :=
                          ih ver sigma _ false q.2 c' (hkids q hq) hc'
                        rw [← hpc]
                        exact hcs
                  cases hcm : optMap (fun p =>
                      (p.2.cachedTop).map (fun mv => (p.1, mv))) kids' with
                  | none =>
                      simp only [hcm] at h
                      exact Option.noConfusion h
                  | some childMVs =>
                      simp only [hcm] at h
                      cases hv with
                      | false =>
                          simp only [Bool.false_eq_true, if_false] at h
                          cases h
                          exact AllSome.node _ _ _ _ hall
                      | true =>
                          simp only [if_pos] at h
                          cases hnb : nibblesToBytes (pre ++ pk) with
                          | none =>
                              simp only [hnb] at h
                              exact Option.noConfusion h
                          | some key =>
                              simp only [hnb] at h
                              cases hsv : storageValFor ver sigma key with
                              | none =>
                                  simp only [hsv] at h
                                  exact Option.noConfusion h
                              | some sv =>
                                  simp only [hsv] at h
                                  cases h
                                  exact AllSome.node _ _ _ _ hall

theorem InvOK.kidsInv {pk : List Nat} {hv : Bool} {cached : Option Bytes}
    {kids : List (Nat × CNode)} (h : InvOK (.mk pk hv cached kids)) :
    ∀ p ∈ kids, InvOK p.2 := by
  cases h with
  | node _ _ _ _ a b => exact a

theorem InvOK.downInv {pk : List Nat} {hv : Bool} {cached : Option Bytes}
    {kids : List (Nat × CNode)} (h : InvOK (.mk pk hv cached kids)) :
    cached.isSome = true → ∀ p ∈ kids, (p.2).cachedTop.isSome = true := by
  cases h with
  | node _ _ _ _ a b => exact b

theorem invOK_nullTop (pk : List Nat) (hv : Bool) (kids : List (Nat × CNode))
    (hkids : ∀ p ∈ kids, InvOK p.2) : InvOK (.mk pk hv none kids) :=
  .node pk hv none kids hkids (fun hx => nomatch hx)

theorem invOK_leaf (pk : List Nat) (hv : Bool) : InvOK (.mk pk hv none []) :=
  invOK_nullTop pk hv [] (fun _ hp => nomatch hp)

theorem svuInsert_invOK :
    ∀ (fuel : Nat) (k : List Nat) (t t' : CNode) (mode : PMode), InvOK t →
      svuInsert fuel k t = some (t', mode) →
      InvOK t' ∧ (mode = .stop → t'.cachedTop = t.cachedTop) ∧
        (mode ≠ .stop → t'.cachedTop = none) := by
  intro fuel
  induction fuel with
  | zero =>
      intro k t t' mode _ h
      cases h
  | succ fuel ih =>
      intro k t t' mode hinv h
      cases t with
      | mk pk hv cached kids =>
          simp only [svuInsert] at h
          split at h
          · cases h
            exact ⟨invOK_nullTop _ _ _ hinv.kidsInv,
              fun hx => PMode.noConfusion hx, fun _ => rfl⟩
          · split at h
            · cases hcg : childGet kids (k.getD pk.length 0) with
              | some c =>
                  simp only [hcg] at h
                  cases hrec : svuInsert fuel (k.drop (pk.length + 1)) c with
                  | none =>
                      simp only [hrec] at h
                      exact Option.noConfusion h
                  | some pr =>
                      obtain ⟨c', mode'⟩ := pr
                      simp only [hrec] at h
                      cases h
                      have hc := ih _ c c' mode' (hinv.kidsInv _ (childGet_mem _ _ _ hcg))
                        hrec
                      have hkids' : ∀ p ∈ childSet kids (k.getD pk.length 0) c',
                          InvOK p.2 := by
                        intro p hp
                        rcases childSet_mem kids _ c' p hp with heq | hmem
                        · rw [heq]
                          exact hc.1
                        · exact hinv.kidsInv p hmem
                      cases mode' with
                      | stop =>
                          simp only [applyPMode]
                          refine ⟨.node _ _ _ _ hkids' ?_, fun _ => rfl,
                            fun hne => absurd rfl hne⟩
                          intro hcs p hp
                          rcases childSet_mem kids _ c' p hp with heq | hmem
                          · rw [heq]
                            show c'.cachedTop.isSome = true
                            rw [hc.2.1 rfl]
                            exact hinv.downInv hcs _ (childGet_mem _ _ _ hcg)
                          · exact hinv.downInv hcs p hmem
                      | uncond =>
                          simp only [applyPMode]
                          exact ⟨invOK_nullTop _ _ _ hkids',
                            fun hx => PMode.noConfusion hx, fun _ => rfl⟩
                      | early =>
                          simp only [applyPMode]
                          cases cached with
                          | some v =>
                              simp only [Option.isSome_some, if_pos]
                              exact ⟨invOK_nullTop _ _ _ hkids',
                                fun hx => PMode.noConfusion hx, fun _ => rfl⟩
                          | none =>
                              simp only [Option.isSome_none, Bool.false_eq_true,
                                if_false]
                              exact ⟨invOK_nullTop _ _ _ hkids',
                                fun _ => rfl, fun _ => rfl⟩
              | none =>
                  simp only [hcg] at h
                  cases h
                  refine ⟨invOK_nullTop _ _ _ ?_, fun hx => PMode.noConfusion hx, fun _ => rfl⟩
                  intro p hp
                  rcases childSet_mem kids _ _ p hp with heq | hmem
                  · rw [heq]
                    exact invOK_leaf _ _
                  · exact hinv.kidsInv p hmem
            · split at h
              · cases h
                refine ⟨invOK_nullTop _ _ _ ?_, fun hx => PMode.noConfusion hx,
                  fun _ => rfl⟩
                intro p hp
                rcases List.mem_singleton.mp hp with heq
                rw [heq]
                exact .node _ _ _ _ hinv.kidsInv hinv.downInv
              · cases h
                refine ⟨invOK_nullTop _ _ _ ?_, fun hx => PMode.noConfusion hx,
                  fun _ => rfl⟩
                intro p hp
                rcases childSet_mem _ _ _ p hp with heq | hmem
                · rw [heq]
                  exact invOK_leaf _ _
                · rcases childSet_mem _ _ _ p hmem with heq' | hmem'
                  · rw [heq']
                    exact invOK_nullTop _ _ _ hinv.kidsInv
                  · cases hmem'

theorem svuRemove_invOK :
    ∀ (fuel : Nat) (k : List Nat) (t : CNode) (r : Option CNode) (mode : PMode),
      InvOK t → svuRemove fuel k t = some (r, mode) →
      ∀ t', r = some t' →
        InvOK t' ∧ (mode = .stop → t'.cachedTop = t.cachedTop) ∧
          (mode ≠ .stop → t'.cachedTop = none) := by
  intro fuel
  induction fuel with
  | zero =>
      intro k t r mode _ h
      cases h
  | succ fuel ih =>
      intro k t r mode hinv h
      cases t with
      | mk pk hv cached kids =>
          simp only [svuRemove] at h
          split at h
          · split at h
            · cases kids with
              | nil =>
                  cases h
                  intro t' ht'
                  exact Option.noConfusion ht'
              | cons p rest =>
                  cases rest with
                  | nil =>
                      obtain ⟨n, c⟩ := p
                      cases c with
                      | mk cpk chv ccached ckids =>
                          cases h
                          intro t' ht'
                          cases ht'
                          refine ⟨invOK_nullTop _ _ _ ?_,
                            fun hx => PMode.noConfusion hx, fun _ => rfl⟩
                          intro q hq
                          exact (hinv.kidsInv _ (List.mem_singleton.mpr rfl)).kidsInv q hq
                  | cons p2 rest2 =>
                      cases h
                      intro t' ht'
                      cases ht'
                      exact ⟨invOK_nullTop _ _ _ hinv.kidsInv,
                        fun hx => PMode.noConfusion hx, fun _ => rfl⟩
            · cases h
              intro t' ht'
              cases ht'
              exact ⟨hinv, fun _ => rfl, fun hne => absurd rfl hne⟩
          · split at h
            · cases hcg : childGet kids (k.getD pk.length 0) with
              | none =>
                  simp only [hcg] at h
                  cases h
                  intro t' ht'
                  cases ht'
                  exact ⟨hinv, fun _ => rfl, fun hne => absurd rfl hne⟩
              | some c =>
                  simp only [hcg] at h
                  cases hrec : svuRemove fuel (k.drop (pk.length + 1)) c with
                  | none =>
                      simp only [hrec] at h
                      exact Option.noConfusion h
                  | some pr =>
                      obtain ⟨rOpt, mode'⟩ := pr
                      cases rOpt with
                      | some c' =>
                          simp only [hrec] at h
                          cases h
                          intro t' ht'
                          cases ht'
                          have hc := (ih _ c (some c') mode'
                            (hinv.kidsInv _ (childGet_mem _ _ _ hcg)) hrec) c' rfl
                          have hkids' : ∀ p ∈ childSet kids (k.getD pk.length 0) c',
                              InvOK p.2 := by
                            intro p hp
                            rcases childSet_mem kids _ c' p hp with heq | hmem
                            · rw [heq]
                              exact hc.1
                            · exact hinv.kidsInv p hmem
                          cases mode' with
                          | stop =>
                              simp only [applyPMode]
                              refine ⟨.node _ _ _ _ hkids' ?_, fun _ => rfl,
                                fun hne => absurd rfl hne⟩
                              intro hcs p hp
                              rcases childSet_mem kids _ c' p hp with heq | hmem
                              · rw [heq]
                                show c'.cachedTop.isSome = true
                                rw [hc.2.1 rfl]
                                exact hinv.downInv hcs _ (childGet_mem _ _ _ hcg)
                              · exact hinv.downInv hcs p hmem
                          | uncond =>
                              simp only [applyPMode]
                              exact ⟨invOK_nullTop _ _ _ hkids',
                                fun hx => PMode.noConfusion hx, fun _ => rfl⟩
                          | early =>
                              simp only [applyPMode]
                              cases cached with
                              | some v =>
                                  simp only [Option.isSome_some, if_pos]
                                  exact ⟨invOK_nullTop _ _ _ hkids',
                                    fun hx => PMode.noConfusion hx, fun _ => rfl⟩
                              | none =>
                                  simp only [Option.isSome_none, Bool.false_eq_true,
                                    if_false]
                                  exact ⟨invOK_nullTop _ _ _ hkids',
                                    fun _ => rfl, fun _ => rfl⟩
                      | none =>
                          simp only [hrec] at h
                          split at h
                          · cases h
                            intro t' ht'
                            cases ht'
                            refine ⟨invOK_nullTop _ _ _ ?_,
                              fun hx => PMode.noConfusion hx, fun _ => rfl⟩
                            intro p hp
                            exact hinv.kidsInv p (childRemove_mem _ _ p hp)
                          · split at h
                            · rename_i m s heq2
                              cases s with
                              | mk spk shv scached skids =>
                                  cases h
                                  intro t' ht'
                                  cases ht'
                                  refine ⟨invOK_nullTop _ _ _ ?_,
                                    fun hx => PMode.noConfusion hx, fun _ => rfl⟩
                                  intro q hq
                                  have hsmem : (m, CNode.mk spk shv scached skids) ∈
                                      childRemove kids (k.getD pk.length 0) := by
                                    rw [heq2]
                                    exact List.mem_singleton.mpr rfl
                                  exact (hinv.kidsInv _
                                    (childRemove_mem _ _ _ hsmem)).kidsInv q hq
                            · cases h
                              intro t' ht'
                              exact Option.noConfusion ht'
            · cases h
              intro t' ht'
              cases ht'
              exact ⟨hinv, fun _ => rfl, fun hne => absurd rfl hne⟩

theorem rpGo_invOK :
    ∀ (fuel : Nat) (pfx : List Nat) (t : CNode) (r : Option CNode) (removed : Bool),
      InvOK t → rpGo fuel pfx t = some (r, removed) →
      ∀ t', r = some t' →
        InvOK t' ∧ (removed = true → t'.cachedTop = none) := by
  intro fuel
  induction fuel with
  | zero =>
      intro pfx t r removed _ h
      cases h
  | succ fuel ih =>
      intro pfx t r removed hinv h
      cases t with
      | mk pk hv cached kids =>
          simp only [rpGo] at h
          split at h
          · cases h
            intro t' ht'
            exact Option.noConfusion ht'
          · split at h
            · cases hcg : childGet kids (pfx.getD pk.length 0) with
              | none =>
                  simp only [hcg] at h
                  cases h
                  intro t' ht'
                  cases ht'
                  exact ⟨hinv, fun htr => Bool.noConfusion htr⟩
              | some c =>
                  simp only [hcg] at h
                  cases hrec : rpGo fuel (pfx.drop (pk.length + 1)) c with
                  | none =>
                      simp only [hrec] at h
                      exact Option.noConfusion h
                  | some pr =>
                      obtain ⟨rr, removedFlag⟩ := pr
                      cases removedFlag with
                      | false =>
                          cases rr with
                          | some c' =>
                              simp only [hrec] at h
                              cases h
                              intro t' ht'
                              cases ht'
                              exact ⟨hinv, fun htr => Bool.noConfusion htr⟩
                          | none =>
                              simp only [hrec] at h
                              cases h
                              intro t' ht'
                              cases ht'
                              exact ⟨hinv, fun htr => Bool.noConfusion htr⟩
                      | true =>
                          cases rr with
                          | some c' =>
                              simp only [hrec] at h
                              cases h
                              intro t' ht'
                              cases ht'
                              have hc := (ih _ c (some c') true
                                (hinv.kidsInv _ (childGet_mem _ _ _ hcg)) hrec) c' rfl
                              refine ⟨invOK_nullTop _ _ _ ?_, fun _ => rfl⟩
                              intro q hq
                              rcases childSet_mem kids _ c' q hq with heq | hmem
                              · rw [heq]
                                exact hc.1
                              · exact hinv.kidsInv q hmem
                          | none =>
                              simp only [hrec] at h
                              split at h
                              · cases h
                                intro t' ht'
                                cases ht'
                                refine ⟨invOK_nullTop _ _ _ ?_, fun _ => rfl⟩
                                intro q hq
                                exact hinv.kidsInv q (childRemove_mem _ _ q hq)
                              · split at h
                                · rename_i m s heq2
                                  cases s with
                                  | mk spk shv scached skids =>
                                      cases h
                                      intro t' ht'
                                      cases ht'
                                      refine ⟨invOK_nullTop _ _ _ ?_, fun _ => rfl⟩
                                      intro q hq
                                      have hsmem : (m, CNode.mk spk shv scached skids) ∈
                                          childRemove kids (pfx.getD pk.length 0) := by
                                        rw [heq2]
                                        exact List.mem_singleton.mpr rfl
                                      exact (hinv.kidsInv _
                                        (childRemove_mem _ _ _ hsmem)).kidsInv q hq
                                · cases h
                                  intro t' ht'
                                  exact Option.noConfusion ht'
            · cases h
              intro t' ht'
              cases ht'
              exact ⟨hinv, fun htr => Bool.noConfusion htr⟩

theorem allNone_leaf (pk : List Nat) (hv : Bool) : AllNone (.mk pk hv none []) :=
  .node pk hv [] (fun _ hq => nomatch hq)

theorem buildInsert_allNone :
    ∀ (fuel : Nat) (k : List Nat) (t t' : CNode), AllNone t →
      buildInsert fuel k t = some t' → AllNone t' := by
  intro fuel
  induction fuel with
  | zero =>
      intro k t t' _ h
      cases h
  | succ fuel ih =>
      intro k t t' hall h
      cases t with
      | mk pk hv cached kids =>
          have hkids : ∀ p ∈ kids, AllNone p.2 := by
            cases hall with
            | node _ _ _ a => exact a
          have hcached : cached = none := by
            cases hall with
            | node _ _ _ _ => rfl
          subst hcached
          simp only [buildInsert] at h
          split at h
          · exact Option.noConfusion h
          · split at h
            · cases hcg : childGet kids (k.getD pk.length 0) with
              | some c =>
                  simp only [hcg] at h
                  cases hrec : buildInsert fuel (k.drop (pk.length + 1)) c with
                  | none =>
                      simp only [hrec] at h
                      exact Option.noConfusion h
                  | some c' =>
                      simp only [hrec] at h
                      cases h
                      refine AllNone.node _ _ _ ?_
                      intro p hp
                      rcases childSet_mem kids _ c' p hp with heq | hmem
                      · rw [heq]
                        exact ih _ c c' (hkids _ (childGet_mem _ _ _ hcg)) hrec
                      · exact hkids p hmem
              | none =>
                  simp only [hcg] at h
                  cases h
                  refine AllNone.node _ _ _ ?_
                  intro p hp
                  rcases childSet_mem kids _ _ p hp with heq | hmem
                  · rw [heq]
                    exact allNone_leaf _ _
                  · exact hkids p hmem
            · split at h
              · cases h
                refine AllNone.node _ _ _ ?_
                intro p hp
                rw [List.mem_singleton.mp hp]
                exact AllNone.node _ _ _ hkids
              · cases h
                refine AllNone.node _ _ _ ?_
                intro p hp
                rcases childSet_mem _ _ _ p hp with heq | hmem
                · rw [heq]
                  exact allNone_leaf _ _
                · rcases childSet_mem _ _ _ p hmem with heq' | hmem'
                  · rw [heq']
                    exact AllNone.node _ _ _ hkids
                  · cases hmem'

theorem buildTrieGo_allNone (fuel : Nat) :
    ∀ (keys : List (List Nat)) (acc : TrieS),
      (∀ r, acc = some r → AllNone r) →
      ∀ root, buildTrieGo fuel acc keys = some (some root) → AllNone root := by
  intro keys
  induction keys with
  | nil =>
      intro acc hacc root h
      cases acc with
      | none =>
          simp only [buildTrieGo] at h
          exact Option.noConfusion (Option.some.inj h)
      | some t =>
          simp only [buildTrieGo] at h
          cases h
          exact hacc root rfl
  | cons k rest ih =>
      intro acc hacc root h
      cases acc with
      | none =>
          simp only [buildTrieGo] at h
          refine ih _ ?_ root h
          intro r hr
          cases hr
          exact allNone_leaf _ _
      | some t =>
          simp only [buildTrieGo] at h
          cases hrec : buildInsert fuel k t with
          | none =>
              simp only [hrec] at h
              exact Option.noConfusion h
          | some t' =>
              simp only [hrec] at h
              refine ih _ ?_ root h
              intro r hr
              cases hr
              exact buildInsert_allNone fuel k t t' (hacc t rfl) hrec

/-- The cache invariant at the `CalculationCache` level. -/
def CacheInv : Cache → Prop
  | none => True
  | some none => True
  | some (some root) => InvOK root

/-- Claim C10: in every cache observable at the public interface, the set of
trie nodes whose cached Merkle value is absent is closed under taking parents
(locally: a node with a Merkle value has only children with Merkle values).
A cache returned by a completed root computation satisfies the invariant — it
is in fact fully populated — and both `storage_value_update` and
`prefix_remove_update` preserve it, which is what justifies the
ancestor-invalidation loop stopping at the first already-absent ancestor. -/
theorem c10_cache_upward_closed_invalidation :
    (∀ (fuel : Nat) (ver : TrieVer) (sigma : Store) (cache : Cache)
        (hash : Bytes) (cache' : Cache), CacheInv cache →
        rootCalc fuel ver sigma cache = some (hash, cache') →
        CacheInv cache' ∧ (∀ root, cache' = some (some root) → AllSome root)) ∧
    (∀ (fuel : Nat) (c c' : Cache) (key : Bytes) (hasValue : Bool), CacheInv c →
        storageValueUpdate fuel c key hasValue = some c' → CacheInv c') ∧
    (∀ (fuel : Nat) (c c' : Cache) (pfx : Bytes), CacheInv c →
        prefixRemoveUpdate fuel c pfx = some c' → CacheInv c') := by
  refine ⟨?_, ?_, ?_⟩
  · intro fuel ver sigma cache hash cache' hci h
    have main : ∀ (root : CNode), InvOK root →
        (match fillMV fuel ver sigma [] true root with
          | none => none
          | some root' =>
              match root'.cachedTop with
              | none => none
              | some mv => some (mv, some (some root'))) = some (hash, cache') →
        CacheInv cache' ∧ (∀ root2, cache' = some (some root2) → AllSome root2) := by
      intro root hroot hm
      cases hf : fillMV fuel ver sigma [] true root with
      | none =>
          simp only [hf] at hm
          exact Option.noConfusion hm
      | some root' =>
          simp only [hf] at hm
          have hall : AllSome root' := fillMV_allSome fuel ver sigma [] true root root'
            hroot hf
          cases hct : root'.cachedTop with
          | none =>
              simp only [hct] at hm
              exact Option.noConfusion hm
          | some mv =>
              simp only [hct] at hm
              cases hm
              refine ⟨allSome_invOK hall, ?_⟩
              intro root2 hr2
              cases hr2
              exact hall
    cases cache with
    | none =>
        simp only [rootCalc] at h
        cases hb : buildTrie fuel (sigma.map (fun p => bytesToNibbles p.1)) with
        | none =>
            simp only [hb] at h
            exact Option.noConfusion h
        | some t =>
            simp only [hb] at h
            cases t with
            | none =>
                cases h
                exact ⟨trivial, fun root2 hr2 => Option.noConfusion (Option.some.inj hr2)⟩
            | some root =>
                exact main root
                  (allNone_invOK (buildTrieGo_allNone fuel _ none
                    (fun r hr => Option.noConfusion hr) root hb)) h
    | some t =>
        cases t with
        | none =>
            simp only [rootCalc] at h
            cases h
            exact ⟨trivial, fun root2 hr2 => Option.noConfusion (Option.some.inj hr2)⟩
        | some root =>
            simp only [rootCalc] at h
            exact main root hci h
  · intro fuel c c' key hasValue hci h
    cases c with
    | none =>
        cases h
        exact trivial
    | some t =>
        cases hasValue with
        | true =>
            cases t with
            | none =>
                cases h
                exact invOK_leaf _ _
            | some root =>
                simp only [storageValueUpdate, if_pos] at h
                cases hrec : svuInsert fuel (bytesToNibbles key) root with
                | none =>
                    simp only [hrec] at h
                    exact Option.noConfusion h
                | some pr =>
                    obtain ⟨t', mode⟩ := pr
                    simp only [hrec] at h
                    cases h
                    exact (svuInsert_invOK fuel _ root t' mode hci hrec).1
        | false =>
            cases t with
            | none =>
                cases h
                exact trivial
            | some root =>
                simp only [storageValueUpdate, Bool.false_eq_true, if_false] at h
                cases hrec : svuRemove fuel (bytesToNibbles key) root with
                | none =>
                    simp only [hrec] at h
                    exact Option.noConfusion h
                | some pr =>
                    obtain ⟨rOpt, mode⟩ := pr
                    simp only [hrec] at h
                    cases h
                    cases rOpt with
                    | none => exact trivial
                    | some t' =>
                        exact ((svuRemove_invOK fuel _ root (some t') mode hci hrec)
                          t' rfl).1
  · intro fuel c c' pfx hci h
    cases c with
    | none =>
        cases h
        exact trivial
    | some t =>
        cases t with
        | none =>
            cases h
            exact trivial
        | some root =>
            simp only [prefixRemoveUpdate] at h
            cases hrec : rpGo fuel (bytesToNibbles pfx) root with
            | none =>
                simp only [hrec] at h
                exact Option.noConfusion h
            | some pr =>
                obtain ⟨r, removed⟩ := pr
                cases removed with
                | true =>
                    simp only [hrec] at h
                    cases h
                    cases r with
                    | none => exact trivial
                    | some t' =>
                        exact ((rpGo_invOK fuel _ root (some t') true hci hrec) t' rfl).1
                | false =>
                    cases r with
                    | none =>
                        simp only [hrec] at h
                        cases h
                        exact trivial
                    | some t' =>
                        simp only [hrec] at h
                        cases h
                        cases t' with
                        | mk pk2 hv2 cached2 kids2 =>
                            have hinv := ((rpGo_invOK fuel _ root _ false hci hrec) _ rfl).1
                            exact invOK_nullTop _ _ _ hinv.kidsInv

/-- Claim C10, witness: a concrete `storage_value_update` on a cache holding a
populated single-node structure preserves the invariant. -/
theorem c10_cache_upward_closed_invalidation_witness :
    CacheInv (some (some (CNode.mk [1, 2] true none []))) :=
  c10_cache_upward_closed_invalidation.2.1 10
    (some (some (CNode.mk [1, 2] true (some [5]) [])))
    (some (some (CNode.mk [1, 2] true none []))) [0x12] true
    (.node _ _ _ _ (fun _ hp => nomatch hp) (fun _ _ hp => nomatch hp)) rfl

/-- Control: the divergence of the failing input is exactly the missing child
invalidation.  The structure after the buggy update is the new node at
`[1, 2]` (Merkle value nulled) holding the displaced child at nibble 3 with
partial key `[4]` and its stale Merkle value still present; the same cache
with that child also invalidated yields the fresh root again. -/
theorem c1_control_child_invalidation_restores :
    (do
      let r1 ← rootCalc 100 .v1 c1Store none
      let updated ← storageValueUpdate 100 r1.2 [0x12] true
      pure updated) =
      some (some (some (.mk [1, 2] true none
        [(3, .mk [4] true (some (blake2b256 [0x44, 0x12, 0x34, 0x04, 0xbb])) [])]))) ∧
    (rootCalc 100 .v1 c1StoreMut
        (some (some (.mk [1, 2] true none [(3, .mk [4] true none [])])))).map Prod.fst =
      (rootCalc 100 .v1 c1StoreMut none).map Prod.fst := by
  constructor
  · rfl
  · decide
